import Mathlib

/-!
Verification of `mediawiki_markdown_to_hugo.py`, a converter that adds Hugo
front matter to MediaWiki-exported Markdown pages.

This file is a shallow embedding of the Python source.  Strings are modelled
as Lean `String`/`List Char`; Python dictionaries are modelled as association
lists looked up from the front (first writer wins, like a `dict` in which keys
are only inserted when absent); Python `assert`/`raise` is modelled with
`Except String`.  Character-level Python string methods (`lower`, `upper`,
`title`) are modelled on their ASCII fragment, which covers every input used
by the theorems below.  The external capabilities that the program's own
design document declares out of scope (the commonmark parser producing a
`FrontMatter`, and `unidecode` transliteration) enter as function parameters
`makeFM` and `translit`.
-/

namespace MwToHugo

/-- Python `str.lower` on one character (ASCII fragment). -/
def pyLowerChar (c : Char) : Char := c.toLower

/-- Python `str.upper` on one character (ASCII fragment). -/
def pyUpperChar (c : Char) : Char := c.toUpper

/-- Python `str.lower` on a whole string (ASCII fragment). -/
def pyLower (s : String) : String := ⟨s.data.map pyLowerChar⟩

/-- Helper for Python `str.title`: the Boolean records whether the previous
character was a cased (alphabetic) character; the first character of each
alphabetic run is uppercased and the rest are lowercased (ASCII fragment). -/
def pyTitleAux : Bool → List Char → List Char
  | _, [] => []
  | prevAlpha, c :: cs =>
    (if c.isAlpha then (if prevAlpha then pyLowerChar c else pyUpperChar c) else c)
      :: pyTitleAux c.isAlpha cs

/-- Python `str.title` (ASCII fragment): `"akord".title() = "Akord"`,
`"C9sus".title() = "C9Sus"`. -/
def pythonTitle (s : String) : String := ⟨pyTitleAux false s.data⟩

/-- Association-list lookup modelling a Python `dict` in which a key is only
ever inserted when absent (as all the dictionaries of this program are). -/
def alookup {α : Type} : List (String × α) → String → Option α
  | [], _ => none
  | (k', v) :: rest, k => if k' = k then some v else alookup rest k

/-- Metadata of one `<page>` of the Mediawiki XML export (`MediawikiPage`). -/
structure MediawikiPage where
  title : String
  timestamp : String
  contributor : String
deriving DecidableEq

/-- The fields of the Python `FrontMatter` dataclass that the functions
verified here read.  The remaining fields (slug, categories, links, aliases,
image paths, date, contributor) are never consulted by the link-resolution
engine, the site-index builders or the write loop modelled below. -/
structure FrontMatter where
  title : String
  wiki_name : Option String
  redirect : Option String
deriving DecidableEq

/-- The Python `Document` dataclass: content, path and optional XML metadata.
In Python, `fm` is recomputed from `content` and `path` by `MakeFrontMatter`
via the external commonmark parser; here it is carried as data and rebuilt by
an explicit external parameter `makeFM` whenever a transformation constructs
a new `Document`. -/
structure Document where
  content : String
  path : String
  mp : Option MediawikiPage
  fm : FrontMatter
deriving DecidableEq

/-- Regex class `\w` (ASCII fragment): letters, digits and underscore. -/
def isWordChar (c : Char) : Bool := c.isAlphanum || c = '_'

/-- One `foldr` step of `re.split("[^\w]+", s)`.  The state holds the
segments found so far (head = leftmost) and whether the character to the
right was part of a separator run (so that adjacent separators collapse). -/
def splitStep (c : Char) (st : List (List Char) × Bool) : List (List Char) × Bool :=
  if isWordChar c then
    match st.1 with
    | s :: rest => ((c :: s) :: rest, false)
    | [] => ([[c]], false)
  else if st.2 then (st.1, true)
  else ([] :: st.1, true)

/-- `re.split("[^\w]+", s)`: split on maximal runs of non-word characters.
Empty segments appear only when the string starts or ends with a separator
run, exactly as in Python. -/
def splitRuns (l : List Char) : List (List Char) :=
  (l.foldr splitStep ([[]], false)).1

/-- Python `str.strip('-')`: drop `-` from both ends. -/
def stripDash (l : List Char) : List Char :=
  ((l.dropWhile (· = '-')).reverse.dropWhile (· = '-')).reverse

/-- The right half of `stripDash`: drop `-` from the right end only, so that
`stripDash l = stripRight (l.dropWhile (· = '-'))` by definition. -/
def stripRight (l : List Char) : List Char :=
  (l.reverse.dropWhile (· = '-')).reverse

/-- Python `'-'.join(segments)`. -/
def dashJoin (segs : List (List Char)) : List Char := List.intercalate ['-'] segs

/-- `Slugify` from the source: replace `_` by space, lowercase, split on runs
of non-word characters, join with `-`, strip `-` from both ends. -/
def Slugify (s : String) : String :=
  let no_under := s.data.map (fun c => if c = '_' then ' ' else c)
  let lowercased := no_under.map pyLowerChar
  let segments := splitRuns lowercased
  ⟨stripDash (dashJoin segments)⟩

/-- The root part of Python `os.path.splitext(path)`: cut the suffix starting
at the last `.` of the final path component, unless every character of that
component before the dot is itself a dot (leading dots are kept, as in
CPython). -/
def splitextRoot (s : String) : String :=
  let r := s.data.reverse
  let baseRev := r.takeWhile (· ≠ '/')
  let extRev := baseRev.takeWhile (· ≠ '.')
  if extRev.length = baseRev.length then s
  else
    let stemRev := baseRev.drop (extRev.length + 1)
    if stemRev.all (· = '.') then s
    else ⟨(r.drop (extRev.length + 1)).reverse⟩

/-- Python `str.split(sep)` for a one-character separator: every occurrence
splits, and empty segments are kept. -/
def splitOnChar (sep : Char) : List Char → List (List Char)
  | [] => [[]]
  | c :: cs =>
    if c = sep then [] :: splitOnChar sep cs
    else
      match splitOnChar sep cs with
      | [] => [[c]]
      | s :: rest => (c :: s) :: rest

/-- The note letters `A`..`G` produced by `range(ord('A'), ord('H'))` in
`_isNoteName`; the Python `range` excludes its upper bound, so `H` is not a
note letter for this program. -/
def noteLetters : List Char := ['A', 'B', 'C', 'D', 'E', 'F', 'G']

/-- `_isNoteName` from the source: a bare note letter, or a note letter
followed by the flat `♭` or sharp `♯` sign. -/
def _isNoteName (s : String) : Bool :=
  (noteLetters.map (fun c => String.mk [c])
    ++ noteLetters.map (fun c => String.mk [c, '♭'])
    ++ noteLetters.map (fun c => String.mk [c, '♯'])).contains s

/-- `WikinameFromPath` from the source: final path segment without extension,
except that a final segment naming a musical note with at least one parent
segment keeps `parent/segment` (chord titles such as `F/C`). -/
def WikinameFromPath (path : String) : String :=
  let no_ext := splitextRoot path
  let parts := splitOnChar '/' no_ext.data
  let lastPart := parts.getLastD []
  if _isNoteName ⟨lastPart⟩ && 2 ≤ parts.length then
    ⟨parts.getD (parts.length - 2) [] ++ '/' :: lastPart⟩
  else ⟨lastPart⟩

/-- `TitleFromPath` from the source: `WikinameFromPath` with underscores
replaced by spaces. -/
def TitleFromPath (path : String) : String :=
  ⟨(WikinameFromPath path).data.map (fun c => if c = '_' then ' ' else c)⟩

/-- Worker for `DocumentsByPath`: Python iterates over the documents, asserts
that the verbatim path is not yet a key, registers it, and additionally
registers the lower-cased path when that key is still free. -/
def DocumentsByPathAux : List (String × Document) → List Document →
    Except String (List (String × Document))
  | by_path, [] => .ok by_path
  | by_path, doc :: rest =>
    if (alookup by_path doc.path).isSome then
      .error "assert failed: doc.path not in by_path"
    else
      let m1 := by_path ++ [(doc.path, doc)]
      let path_lower := pyLower doc.path
      if (alookup m1 path_lower).isSome then DocumentsByPathAux m1 rest
      else DocumentsByPathAux (m1 ++ [(path_lower, doc)]) rest

/-- `DocumentsByPath` from the source. -/
def DocumentsByPath (documents : List Document) : Except String (List (String × Document)) :=
  DocumentsByPathAux [] documents

/-- The `(st_dev, st_ino)` pair of one `os.stat` result. -/
structure StatResult where
  st_dev : Nat
  st_ino : Nat
deriving DecidableEq

/-- `ValidateDirectories` from the source, over an abstract filesystem
`stat : String → Option StatResult` (`none` models `FileNotFoundError`).
Note that the body returns `st_dev == st_dev && st_ino == st_ino`, i.e. it
returns `true` when the two directories are the SAME filesystem object,
although its docstring promises true when they are different. -/
def ValidateDirectories (stat : String → Option StatResult) (dir1 dir2 : String) :
    Except String Bool :=
  match stat dir1, stat dir2 with
  | some st1, some st2 => .ok (st1.st_dev == st2.st_dev && st1.st_ino == st2.st_ino)
  | _, _ => .error "FileNotFoundError: Please sure both directories exist"

/-- `WriteContent` from the source, over an abstract filesystem mapping paths
to existing file contents: returns `false` (no write performed) when the new
content is byte-identical to the existing file, `true` otherwise.  `dry_run`
only suppresses the physical write, not the return value, so it is not a
parameter of the model. -/
def WriteContent (existing : List (String × String)) (content : String) (path : String) : Bool :=
  match alookup existing path with
  | some e => if content = e then false else true
  | none => true

/-- The final write loop of `__main__`: every non-redirect document is run
through `WriteContent`, its result recorded in `writing_result`, and then
`number_files_written` is incremented UNCONDITIONALLY (not only when
`WriteContent` returned `true`).  The function returns the pair
`(number_files_written, writing_result as a list)`; `updated` stands for the
rendering pipeline producing the document's output text. -/
def mainWriteLoop (existing : List (String × String)) (updated : Document → String) :
    List Document → Nat × List Bool
  | [] => (0, [])
  | doc :: rest =>
    if doc.fm.redirect.isSome then mainWriteLoop existing updated rest
    else
      let written := WriteContent existing (updated doc) doc.path
      let (n, results) := mainWriteLoop existing updated rest
      (n + 1, written :: results)

/-- The regex `^`(?P<monospace>.*)`$` of `FixMonospace` matches a line iff it
has length at least two and starts and ends with a backtick. -/
def isMonoLine (l : List Char) : Bool :=
  2 ≤ l.length && l.head? == some '`' && l.getLast? == some '`'

/-- The `monospace` capture group of a matching line: everything strictly
between the outer backticks. -/
def monoContent (l : List Char) : List Char := (l.drop 1).dropLast

/-- A fence line "```" as emitted by `FixMonospace`. -/
def fenceLine : List Char := ['`', '`', '`']

/-- The two-state line scanner of `FixMonospace`; the Boolean is `true` in
the `_inside` state.  Entering a run emits a blank line and an opening fence;
leaving it emits a closing fence and a blank line; nothing is emitted when
the input ends while still inside. -/
def monoScan : Bool → List (List Char) → List (List Char)
  | _, [] => []
  | false, line :: rest =>
    if isMonoLine line then [] :: fenceLine :: monoContent line :: monoScan true rest
    else line :: monoScan false rest
  | true, line :: rest =>
    if isMonoLine line then monoContent line :: monoScan true rest
    else fenceLine :: [] :: line :: monoScan false rest

/-- The final state of the scanner after all lines. -/
def monoScanState : Bool → List (List Char) → Bool
  | st, [] => st
  | _, line :: rest => monoScanState (isMonoLine line) rest

/-- Python `str.splitlines()` restricted to `\n` line boundaries: split on
every newline and drop the one trailing empty segment produced by a final
newline. -/
def pySplitlines (l : List Char) : List (List Char) :=
  let segs := splitOnChar '\n' l
  if segs.getLastD [] = [] then segs.dropLast else segs

/-- `FixMonospace` from the source: scan the lines, then rejoin with
newlines and append a final newline. -/
def FixMonospace (makeFM : String → String → FrontMatter) (d : Document) : Document :=
  let result := monoScan false (pySplitlines d.content.data)
  let content' : String := ⟨List.intercalate ['\n'] result ++ ['\n']⟩
  { content := content', path := d.path, mp := d.mp, fm := makeFM content' d.path }

/-- The corpus-wide lookup structures consumed by `TryToFixWikilinks`. -/
structure Site where
  by_path : List (String × Document)
  by_wikiname : List (String × Document)
  redirects : List (String × String)

/-- `RedirectExists` from the source: the name has a redirect edge and the
edge's raw target is present in `by_wikiname`. -/
def RedirectExists (redirects : List (String × String))
    (by_wikiname : List (String × Document)) (w : String) : Bool :=
  match alookup redirects w with
  | some v => (alookup by_wikiname v).isSome
  | none => false

/-- The `while` loop of `ResolveRedirect`, with explicit fuel (the loop in
Python terminates because each iteration either aborts or adds a fresh name
to `visited`, and `visited` is bounded by the redirect map; `resolve_fuel_ok`
below proves the fuel is never exhausted).  Errors model, in order: the
`assert wikiname_title not in visited` cycle abort, the `KeyError` of
`by_wikiname[wikiname_title]`, the `assert wikiname_title == doc.fm.wiki_name`
abort, and the final `ValueError` when the chain's last document still
declares a redirect. -/
def ResolveRedirectAux (redirects : List (String × String))
    (by_wikiname : List (String × Document)) :
    Nat → List String → Option Document → String → Except String (Option Document)
  | 0, _, _, _ => .error "insufficient fuel"
  | fuel + 1, visited, doc, w =>
    if RedirectExists redirects by_wikiname w then
      if visited.contains w then .error "Redirect loop"
      else
        match alookup redirects w with
        | none => .error "unreachable: RedirectExists guarantees an edge"
        | some v =>
          let w' := pythonTitle v
          match alookup by_wikiname w' with
          | none => .error "KeyError: wikiname_title not in by_wikiname"
          | some d =>
            if d.fm.wiki_name = some w' then
              ResolveRedirectAux redirects by_wikiname fuel (w :: visited) (some d) w'
            else .error "assert failed: wikiname_title != doc.fm.wiki_name"
    else
      match doc with
      | some d =>
        if d.fm.redirect.isSome then .error "Trying to redirect to a redirection"
        else .ok (some d)
      | none => .ok none

/-- `ResolveRedirect` from the source: start from the title-cased name with
an empty visited set and no document. -/
def ResolveRedirect (redirects : List (String × String))
    (by_wikiname : List (String × Document)) (w : String) : Except String (Option Document) :=
  ResolveRedirectAux redirects by_wikiname (redirects.length + 1) [] none (pythonTitle w)

/-- `annotate_invalid` from the source (its comment text is Polish for
"the link did not refer to anything"): the anchor text, without brackets,
followed by an HTML comment carrying the diagnostic. -/
def annotateInvalid (anchor reason : String) : String :=
  anchor ++ "<!-- link nie odnosił się do niczego: " ++ reason ++ " -->"

/-- Python `repr` of a string as used by the `%r` format, modelled for
strings without quotes, backslashes or control characters. -/
def pyReprStr (s : String) : String := "\x27" ++ s ++ "\x27"

/-- Python `repr` of a `pathlib.Path` as used by the `%r` format. -/
def pyReprPath (p : String) : String := "PosixPath(\x27" ++ p ++ "\x27)"

/-- `re.match(':' + CATEGORY_TAG + ':', dest, re.IGNORECASE)`: the
destination starts, case-insensitively, with `:<tag>:`. -/
def matchesCategoryTag (tag dest : String) : Bool :=
  (dest.data.take (tag.data.length + 2)).map pyLowerChar =
    (':' :: tag.data ++ [':']).map pyLowerChar

/-- Python `s.replace(' ', '_')`. -/
def spaceToUnderscore (s : String) : String :=
  ⟨s.data.map (fun c => if c = ' ' then '_' else c)⟩

/-- Python `s.replace('_', ' ')`. -/
def underscoreToSpace (s : String) : String :=
  ⟨s.data.map (fun c => if c = '_' then ' ' else c)⟩

/-- `pathlib.Path.parts[-1]`: the final path component. -/
def lastPathComponent (p : String) : String :=
  ⟨(splitOnChar '/' p.data).getLastD []⟩

/-- The per-match replacement function `repl` nested in `TryToFixWikilinks`,
for a match with groups `anchor` and `dest`.  `translit` is the external
`unidecode` capability; `selfTitle`/`selfPath` are the enclosing document's
`fm.title` and `path`, used in the diagnostic message. -/
def repl (site : Site) (tag : String) (translit : String → String)
    (selfTitle selfPath : String) (anchor dest : String) : Except String String := do
  let dest_wikiname := pythonTitle dest
  let target0 ← ResolveRedirect site.redirects site.by_wikiname dest_wikiname
  let td : Option Document × String :=
    match target0 with
    | some d => (some d, d.path)
    | none =>
      match alookup site.by_wikiname dest_wikiname with
      | some d => (some d, d.path)
      | none => (none, "/no/path/exists")
  match td.1 with
  | some d =>
    if (alookup site.by_path d.path).isSome then
      .ok ("[" ++ anchor ++ "](\x7b\x7b< relref \"" ++ spaceToUnderscore d.fm.title
        ++ ".md\" >\x7d\x7d)")
    else .error "assert failed: target_doc.path not in by_path"
  | none =>
    match alookup site.by_path td.2 with
    | some d2 =>
      .ok ("[" ++ anchor ++ "](\x7b\x7b< relref \"" ++ lastPathComponent d2.path
        ++ "\" >\x7d\x7d)")
    | none =>
      if matchesCategoryTag tag dest then
        let category : String := ⟨dest.data.drop (tag.data.length + 2)⟩
        let slug := Slugify (translit category)
        .ok ("[" ++ anchor ++ "](/kategorie/" ++ slug ++ " \"Kategoria "
          ++ underscoreToSpace category ++ "\")")
      else
        .ok (annotateInvalid anchor (pyReprStr selfTitle ++ " (" ++ pyReprPath selfPath
          ++ ") links to " ++ pyReprStr dest ++ " (" ++ pyReprPath td.2
          ++ ") and that does not exist"))

/-- Python `\s` (ASCII fragment): the six whitespace characters. -/
def pyIsSpace (c : Char) : Bool :=
  c = ' ' || c = '\t' || c = '\n' || c = '\r' || c = '\x0b' || c = '\x0c'

/-- The literal ` "wikilink")` that must follow the destination group in the
pattern `\[(?P<anchor>[^\]]+)\]\((?P<dest>[^\s]+) "wikilink"\)`. -/
def wikilinkTail : List Char :=
  [' ', '"', 'w', 'i', 'k', 'i', 'l', 'i', 'n', 'k', '"', ')']

/-- Attempt to match the wikilink pattern at the head of `l`; on success
return the `anchor` and `dest` groups and the remaining input.  Both
character classes are matched greedily, which is exact here because each is
followed by a literal the class excludes. -/
def matchWikilink (l : List Char) : Option (List Char × List Char × List Char) :=
  match l with
  | [] => none
  | c :: r1 =>
    if c = '[' then
      let anchor := r1.takeWhile (· ≠ ']')
      if anchor = [] then none
      else
        let r2x := r1.drop anchor.length
        if r2x.take 2 = [']', '('] then
          let r2 := r2x.drop 2
          let dest := r2.takeWhile (fun c => !pyIsSpace c)
          if dest = [] then none
          else
            let after := r2.drop dest.length
            if after.take 12 = wikilinkTail then some (anchor, dest, after.drop 12)
            else none
        else none
    else none

/-- The `re.sub` scan of `TryToFixWikilinks`: try the pattern at every
position from left to right, replacing each non-overlapping match by the
result of `repl` (whose assertion failures propagate).  Fuel-indexed so that
every definition evaluates by `decide`/`rfl`; `tryToFix_fuel_ok` below shows
`length + 1` fuel never runs out. -/
def TryToFixWikilinksAux (site : Site) (tag : String) (translit : String → String)
    (selfTitle selfPath : String) : Nat → List Char → Except String (List Char)
  | 0, _ => .error "insufficient fuel"
  | _ + 1, [] => .ok []
  | fuel + 1, c :: cs =>
    match matchWikilink (c :: cs) with
    | some (anchor, dest, rest) => do
      let r ← repl site tag translit selfTitle selfPath ⟨anchor⟩ ⟨dest⟩
      let tail ← TryToFixWikilinksAux site tag translit selfTitle selfPath fuel rest
      .ok (r.data ++ tail)
    | none => do
      let tail ← TryToFixWikilinksAux site tag translit selfTitle selfPath fuel cs
      .ok (c :: tail)

/-- `TryToFixWikilinks` from the source: substitute every wikilink occurrence
in the content and rebuild the document with the same path and metadata. -/
def TryToFixWikilinks (makeFM : String → String → FrontMatter) (site : Site)
    (tag : String) (translit : String → String) (d : Document) : Except String Document := do
  let content' ← TryToFixWikilinksAux site tag translit d.fm.title d.path
    (d.content.data.length + 1) d.content.data
  .ok { content := ⟨content'⟩, path := d.path, mp := d.mp,
        fm := makeFM ⟨content'⟩ d.path }

/-- Case-insensitive match of the literal `tag` at the head of `l` (ASCII
fragment of `re.IGNORECASE`). -/
def matchTagCI (tag : String) (l : List Char) : Bool :=
  (l.take tag.data.length).map pyLowerChar = tag.data.map pyLowerChar

/-- Attempt to match `\[:?<tag>:[^\]]+\]\([^\)]+\)` (the `RemoveCategoryLinks`
pattern) at the head of `l`; on success return the remaining input.  The
optional leading `:` is consumed when present, which is exact whenever the
tag does not itself start with `:`. -/
def matchCategoryLink (tag : String) (l : List Char) : Option (List Char) :=
  match l with
  | '[' :: r0 =>
    let r1 := match r0 with
      | ':' :: r' => r'
      | _ => r0
    if matchTagCI tag r1 then
      match r1.drop tag.data.length with
      | ':' :: r2 =>
        let body := r2.takeWhile (· ≠ ']')
        if body = [] then none
        else
          match r2.drop body.length with
          | ']' :: '(' :: r3 =>
            let inner := r3.takeWhile (· ≠ ')')
            if inner = [] then none
            else
              match r3.drop inner.length with
              | ')' :: rest => some rest
              | _ => none
          | _ => none
      | _ => none
    else none
  | _ => none

/-- Generic fuel-indexed `re.sub` scan: at each position, when `matcher`
fires it yields the replacement text and the rest of the input.  `none`
means the fuel ran out; `subScan_ok` below shows this cannot happen when the
matcher always consumes input and the fuel exceeds the input length. -/
def subScan (matcher : List Char → Option (List Char × List Char)) :
    Nat → List Char → Option (List Char)
  | 0, _ => none
  | _ + 1, [] => some []
  | fuel + 1, c :: cs =>
    match matcher (c :: cs) with
    | some (r, rest) => (subScan matcher fuel rest).map (fun t => r ++ t)
    | none => (subScan matcher fuel cs).map (fun t => c :: t)

/-- `RemoveCategoryLinks` from the source: erase every category link from the
content and rebuild the document with the same path and metadata.  The `getD`
fallback is unreachable (`subScan_ok`). -/
def RemoveCategoryLinks (makeFM : String → String → FrontMatter) (tag : String)
    (d : Document) : Document :=
  let content' : String :=
    ⟨(subScan (fun l => (matchCategoryLink tag l).map (fun rest => ([], rest)))
      (d.content.data.length + 1) d.content.data).getD d.content.data⟩
  { content := content', path := d.path, mp := d.mp, fm := makeFM content' d.path }

/-- Attempt to match `\[[^\]]+\]\(<tag>:([^\s]+)\s"wikilink"\)` (the
`HandleImageTags` pattern) at the head of `l`; on success return the image
path group and the remaining input. -/
def matchImageLink (tag : String) (l : List Char) : Option (List Char × List Char) :=
  match l with
  | '[' :: r1 =>
    let anchor := r1.takeWhile (· ≠ ']')
    if anchor = [] then none
    else
      match r1.drop anchor.length with
      | ']' :: '(' :: r2 =>
        if matchTagCI tag r2 then
          match r2.drop tag.data.length with
          | ':' :: r3 =>
            let img := r3.takeWhile (fun c => !pyIsSpace c)
            if img = [] then none
            else
              match r3.drop img.length with
              | w :: '"' :: r4 =>
                if pyIsSpace w && r4.take 10 = ['w', 'i', 'k', 'i', 'l', 'i', 'n', 'k', '"', ')']
                then some (img, r4.drop 10)
                else none
              | _ => none
          | _ => none
        else none
      | _ => none
  | _ => none

/-- Hypothesis language for the claims about redirect chains: `followN n w`
is the name reached from `w` after `n` steps of the loop of
`ResolveRedirect`, stopping early when no further edge exists. -/
def followN (redirects : List (String × String)) (by_wikiname : List (String × Document)) :
    Nat → String → String
  | 0, w => w
  | n + 1, w =>
    if RedirectExists redirects by_wikiname w then
      followN redirects by_wikiname n (pythonTitle ((alookup redirects w).getD w))
    else w

/-- Hypothesis language for the chain-resolution claim: the names `w :: ws`
form a redirect chain of `ws.length` edges starting at `w`, each name
title-case stable and present in `by_wikiname` with a matching `wiki_name`,
ending at the non-redirect document `T` that has no further outgoing edge. -/
def redirectChainB (redirects : List (String × String))
    (by_wikiname : List (String × Document)) : String → List String → Document → Bool
  | _, [], _ => false
  | w, [w'], T =>
    (alookup redirects w == some w') && (pythonTitle w' == w') &&
    (alookup by_wikiname w' == some T) && (T.fm.wiki_name == some w') &&
    (T.fm.redirect == none) && !(RedirectExists redirects by_wikiname w')
  | w, w' :: ws, T =>
    (alookup redirects w == some w') && (pythonTitle w' == w') &&
    (match alookup by_wikiname w' with
     | some d => d.fm.wiki_name == some w'
     | none => false) &&
    redirectChainB redirects by_wikiname w' ws T

/-- The note-name alphabet as the SPEC's words state it (claim C7): a letter
from `A` to `G` *or `H`*, optionally with a flat or sharp sign.  This is the
spec-side definition used to exhibit the divergence from `_isNoteName`,
whose Python `range(ord('A'), ord('H'))` excludes `H`. -/
def specIsNoteName (s : String) : Bool :=
  ((noteLetters ++ ['H']).map (fun c => String.mk [c])
    ++ (noteLetters ++ ['H']).map (fun c => String.mk [c, '♭'])
    ++ (noteLetters ++ ['H']).map (fun c => String.mk [c, '♯'])).contains s

/-- The replacement text of `HandleImageTags.repl`: an image shortcode at
`/images/` with the first character of the path uppercased. -/
def imageReplacement (img : List Char) : List Char :=
  ("\x7b\x7b< image src=\"/images/").data
    ++ (match img with
        | [] => []
        | c :: cs => pyUpperChar c :: cs)
    ++ ("\" >\x7d\x7d").data

/-- `HandleImageTags` from the source: replace every image link with a
shortcode and rebuild the document with the same path and metadata. -/
def HandleImageTags (makeFM : String → String → FrontMatter) (tag : String)
    (d : Document) : Document :=
  let content' : String :=
    ⟨(subScan (fun l => (matchImageLink tag l).map (fun pr => (imageReplacement pr.1, pr.2)))
      (d.content.data.length + 1) d.content.data).getD d.content.data⟩
  { content := content', path := d.path, mp := d.mp, fm := makeFM content' d.path }

/-- The annotation for an unresolvable link as the SPEC's words state it
(claim C3): bracketed anchor followed by an English HTML comment.  This is
the spec-side definition used to exhibit the divergence from
`annotate_invalid`, which emits the anchor without brackets followed by a
Polish comment. -/
def specAnnotateInvalid (anchor reason : String) : String :=
  "[" ++ anchor ++ "]<!-- link did not resolve to anything: " ++ reason ++ " -->"

/-! ### Helper lemmas -/

theorem alookup_append {α : Type} (a b : List (String × α)) (k : String) :
    alookup (a ++ b) k =
      match alookup a k with
      | some v => some v
      | none => alookup b k := by
  induction a with
  | nil => simp [alookup]
  | cons p rest ih =>
    by_cases h : p.1 = k <;> simp [alookup, h, ih]

theorem alookup_mem {α : Type} {l : List (String × α)} {k : String} {v : α}
    (h : alookup l k = some v) : (k, v) ∈ l := by
  induction l with
  | nil => simp [alookup] at h
  | cons p rest ih =>
    by_cases hk : p.1 = k
    · simp [alookup, hk] at h
      cases p
      simp_all
    · simp [alookup, hk] at h
      exact List.mem_cons_of_mem _ (ih h)

theorem alookup_key_mem {α : Type} {l : List (String × α)} {k : String} {v : α}
    (h : alookup l k = some v) : k ∈ l.map Prod.fst := by
  have := alookup_mem h
  exact List.mem_map.mpr ⟨(k, v), this, rfl⟩

/-! ### C5: `ValidateDirectories` contradicts its own docstring -/

/-- C5: the claim states that the run aborts when the source and destination
directories are identical and that `ValidateDirectories` returns true exactly
when both exist and are different.  The code returns
`st_dev == st_dev && st_ino == st_ino`, which is `true` precisely when the
two names denote the SAME filesystem object, contradicting its own docstring
("Return true when both directories exist and are different"); moreover
`__main__` ignores the returned Boolean, so identical directories never
abort the run.  The missing-directory half of the claim does hold: a failed
`stat` raises.  This theorem evaluates the code at the failing input: both
arguments naming one and the same existing directory. -/
theorem c5_validate_directories_bug :
    ValidateDirectories (fun _ => some ⟨1, 1⟩) "content" "content" = .ok true ∧
    ValidateDirectories (fun d => if d = "src" then some ⟨1, 1⟩ else none) "src" "content"
      = .error "FileNotFoundError: Please sure both directories exist" := by
  constructor <;> rfl

/-! ### C8: skipped-identical files are still counted in the summary -/

/-- C8: the claim states that a non-redirect document whose rendered output
is byte-identical to the existing file is skipped (`WriteContent` returns
`false`, performing no write) and is therefore NOT counted in the final
summary.  The first half holds, but `__main__` increments
`number_files_written` unconditionally for every non-redirect document, so
the skipped document IS counted: at the failing input below the loop
produces the count `1` with recorded write result `false`, and the program
prints "written 1 files" although nothing was written. -/
theorem c8_write_count_bug :
    WriteContent [("p.md", "X")] "X" "p.md" = false ∧
    mainWriteLoop [("p.md", "X")] (fun _ => "X")
      [⟨"c", "p.md", none, ⟨"t", none, none⟩⟩] = (1, [false]) := by
  constructor <;> rfl

/-! ### C4: `DocumentsByPath` can fail on pairwise-distinct paths -/

/-- C4 counterexample: the claim states `DocumentsByPath` succeeds on every
collection of documents whose paths are pairwise distinct.  The two paths
`A.md` and `a.md` are distinct, yet the assertion fires: processing `A.md`
also registers the lower-cased key `a.md`, so the second document's verbatim
path is already taken when its turn comes. -/
theorem c4_claim_counterexample :
    DocumentsByPath
      [⟨"x", "A.md", none, ⟨"t", none, none⟩⟩, ⟨"y", "a.md", none, ⟨"t", none, none⟩⟩]
      = .error "assert failed: doc.path not in by_path" ∧
    ("A.md" : String) ≠ "a.md" := by
  constructor
  · rfl
  · decide

/-! ### C10: `FixMonospace` never closes a fence at end of input -/

theorem isMonoLine_fenceLine : isMonoLine fenceLine = true := by decide

theorem monoScanState_eq_last (lines : List (List Char)) :
    ∀ st : Bool, lines ≠ [] →
      monoScanState st lines = isMonoLine (lines.getLastD []) := by
  induction lines with
  | nil => intro st h; exact absurd rfl h
  | cons l rest ih =>
    intro st _
    cases hrest : rest with
    | nil => simp [monoScanState, hrest]
    | cons l2 rest2 =>
      have := ih (isMonoLine l) (by simp [hrest])
      rw [hrest] at this
      simpa [monoScanState] using this

theorem monoScan_count_parity (lines : List (List Char)) :
    ∀ st : Bool, (∀ l ∈ lines, isMonoLine l = true → monoContent l ≠ fenceLine) →
      (List.count fenceLine (monoScan st lines) + st.toNat) % 2 =
        (monoScanState st lines).toNat := by
  induction lines with
  | nil =>
    intro st _
    cases st <;> simp [monoScan, monoScanState]
  | cons line rest ih =>
    intro st hno
    have hrest : ∀ l ∈ rest, isMonoLine l = true → monoContent l ≠ fenceLine :=
      fun l hl => hno l (List.mem_cons_of_mem _ hl)
    have hline := hno line (List.mem_cons_self _ _)
    have hnil : ¬([] : List Char) = fenceLine := by decide
    have hstate : monoScanState st (line :: rest) = monoScanState (isMonoLine line) rest := rfl
    cases st with
    | false =>
      by_cases hm : isMonoLine line = true
      · have hmc : ¬(monoContent line = fenceLine) := hline hm
        have key := ih true hrest
        rw [hstate, hm]
        simp only [monoScan, hm, if_true]
        have hnil' : ¬(fenceLine = ([] : List Char)) := by decide
        have hmc' : ¬(fenceLine = monoContent line) := fun h => hmc h.symm
        have hc : List.count fenceLine ([] :: fenceLine :: monoContent line :: monoScan true rest)
            = List.count fenceLine (monoScan true rest) + 1 := by
          simp [List.count_cons, hmc', hnil']
        rw [hc]
        rcases hS : monoScanState true rest <;> rw [hS] at key <;> simp only [Bool.toNat_true, Bool.toNat_false] at key ⊢ <;> omega
      · have hm' : isMonoLine line = false := by
          cases h : isMonoLine line
          · rfl
          · exact absurd h hm
        have hne : ¬(line = fenceLine) := by
          intro h; rw [h] at hm; exact hm isMonoLine_fenceLine
        have key := ih false hrest
        rw [hstate, hm']
        simp only [monoScan, hm', Bool.false_eq_true, if_false]
        have hne' : ¬(fenceLine = line) := fun h => hne h.symm
        have hc : List.count fenceLine (line :: monoScan false rest)
            = List.count fenceLine (monoScan false rest) := by
          simp [List.count_cons, hne']
        rw [hc]
        rcases hS : monoScanState false rest <;> rw [hS] at key <;> simp only [Bool.toNat_true, Bool.toNat_false] at key ⊢ <;> omega
    | true =>
      by_cases hm : isMonoLine line = true
      · have hmc : ¬(monoContent line = fenceLine) := hline hm
        have key := ih true hrest
        rw [hstate, hm]
        simp only [monoScan, hm, if_true]
        have hmc' : ¬(fenceLine = monoContent line) := fun h => hmc h.symm
        have hc : List.count fenceLine (monoContent line :: monoScan true rest)
            = List.count fenceLine (monoScan true rest) := by
          simp [List.count_cons, hmc']
        rw [hc]
        rcases hS : monoScanState true rest <;> rw [hS] at key <;> simp only [Bool.toNat_true, Bool.toNat_false] at key ⊢ <;> omega
      · have hm' : isMonoLine line = false := by
          cases h : isMonoLine line
          · rfl
          · exact absurd h hm
        have hne : ¬(line = fenceLine) := by
          intro h; rw [h] at hm; exact hm isMonoLine_fenceLine
        have key := ih false hrest
        rw [hstate, hm']
        simp only [monoScan, hm', Bool.false_eq_true, if_false]
        have hnil' : ¬(fenceLine = ([] : List Char)) := by decide
        have hne' : ¬(fenceLine = line) := fun h => hne h.symm
        have hc : List.count fenceLine (fenceLine :: [] :: line :: monoScan false rest)
            = List.count fenceLine (monoScan false rest) + 1 := by
          simp [List.count_cons, hne', hnil']
        rw [hc]
        rcases hS : monoScanState false rest <;> rw [hS] at key <;> simp only [Bool.toNat_true, Bool.toNat_false] at key ⊢ <;> omega

/-- C10: for content whose last line is wrapped in single backticks the
two-state scanner of `FixMonospace` ends in the inside state and the output
contains an odd number of fence lines — the opening fence of the final run
is emitted but no closing fence ever is, so the rendered document ends with
an unterminated fenced code block; when the last line is not
backtick-wrapped every opened fence is closed (even count).  The
side condition excludes the degenerate line made of five backticks, whose
unwrapped content would itself spell a fence line. -/
theorem c10_unterminated_fence (makeFM : String → String → FrontMatter) (d : Document)
    (hne : pySplitlines d.content.data ≠ [])
    (h5 : ∀ l ∈ pySplitlines d.content.data, isMonoLine l = true → monoContent l ≠ fenceLine) :
    (FixMonospace makeFM d).content =
      ⟨List.intercalate ['\n'] (monoScan false (pySplitlines d.content.data)) ++ ['\n']⟩ ∧
    (isMonoLine ((pySplitlines d.content.data).getLastD []) = true →
      List.count fenceLine (monoScan false (pySplitlines d.content.data)) % 2 = 1) ∧
    (isMonoLine ((pySplitlines d.content.data).getLastD []) = false →
      List.count fenceLine (monoScan false (pySplitlines d.content.data)) % 2 = 0) := by
  refine ⟨rfl, ?_, ?_⟩
  · intro hlast
    have hp := monoScan_count_parity (pySplitlines d.content.data) false h5
    rw [monoScanState_eq_last _ false hne, hlast] at hp
    simpa using hp
  · intro hlast
    have hp := monoScan_count_parity (pySplitlines d.content.data) false h5
    rw [monoScanState_eq_last _ false hne, hlast] at hp
    simpa using hp

/-- C10 witness: a document whose single line is `` `x` `` produces exactly
one (unclosed) fence. -/
theorem c10_unterminated_fence_witness :
    List.count fenceLine (monoScan false (pySplitlines ("`x`" : String).data)) % 2 = 1 := by
  have h := c10_unterminated_fence (fun _ _ => ⟨"", none, none⟩)
    ⟨"`x`", "p", none, ⟨"", none, none⟩⟩ (by decide) (by decide)
  exact h.2.1 (by decide)

/-! ### C7: `WikinameFromPath` and the note-name special case -/

theorem takeWhile_all {α : Type} {p : α → Bool} :
    ∀ l : List α, (∀ c ∈ l, p c = true) → l.takeWhile p = l := by
  intro l h
  induction l with
  | nil => rfl
  | cons c cs ih =>
    rw [List.takeWhile_cons_of_pos (h c (List.mem_cons_self _ _))]
    rw [ih (fun x hx => h x (List.mem_cons_of_mem _ hx))]

theorem takeWhile_append_all {α : Type} {p : α → Bool} (a b : List α)
    (ha : ∀ c ∈ a, p c = true) :
    (a ++ b).takeWhile p = a ++ b.takeWhile p := by
  induction a with
  | nil => rfl
  | cons c cs ih =>
    rw [List.cons_append, List.takeWhile_cons_of_pos (ha c (List.mem_cons_self _ _))]
    rw [ih (fun x hx => ha x (List.mem_cons_of_mem _ hx))]
    simp

theorem splitOnChar_ne_nil (sep : Char) : ∀ l : List Char, splitOnChar sep l ≠ [] := by
  intro l
  induction l with
  | nil => simp [splitOnChar]
  | cons c cs ih =>
    by_cases h : c = sep
    · simp [splitOnChar, h]
    · simp only [splitOnChar, h, if_false]
      cases hs : splitOnChar sep cs with
      | nil => exact absurd hs ih
      | cons s rest => simp

theorem splitOnChar_no_sep (sep : Char) :
    ∀ a : List Char, (∀ c ∈ a, c ≠ sep) → splitOnChar sep a = [a] := by
  intro a h
  induction a with
  | nil => rfl
  | cons c cs ih =>
    have hc : c ≠ sep := h c (List.mem_cons_self _ _)
    simp only [splitOnChar, hc, if_false]
    rw [ih (fun x hx => h x (List.mem_cons_of_mem _ hx))]

theorem splitOnChar_append (sep : Char) :
    ∀ a b : List Char, (∀ c ∈ a, c ≠ sep) →
      splitOnChar sep (a ++ sep :: b) = a :: splitOnChar sep b := by
  intro a b h
  induction a with
  | nil => simp [splitOnChar]
  | cons c cs ih =>
    have hc : c ≠ sep := h c (List.mem_cons_self _ _)
    simp only [List.cons_append, splitOnChar, hc, if_false, List.append_eq]
    rw [ih (fun x hx => h x (List.mem_cons_of_mem _ hx))]

/-- `splitextRoot` cuts exactly the final `.ext` when the extension is
non-empty and free of slashes and dots, and the base name before the dot
holds at least one character that is neither a slash nor a dot. -/
theorem splitextRoot_eq (x ext : List Char) (hext : ext ≠ [])
    (hextc : ∀ c ∈ ext, c ≠ '/' ∧ c ≠ '.')
    (hstem : ∃ c, c ∈ (x.reverse.takeWhile (· ≠ '/')) ∧ c ≠ '.') :
    splitextRoot ⟨x ++ '.' :: ext⟩ = ⟨x⟩ := by
  have hdata : (⟨x ++ '.' :: ext⟩ : String).data = x ++ '.' :: ext := rfl
  have hrev : (x ++ '.' :: ext).reverse = (ext.reverse ++ ['.']) ++ x.reverse := by
    simp
  have hbase : ((ext.reverse ++ ['.']) ++ x.reverse).takeWhile (· ≠ '/')
      = ext.reverse ++ '.' :: (x.reverse.takeWhile (· ≠ '/')) := by
    rw [List.append_assoc]
    rw [takeWhile_append_all ext.reverse _
      (fun c hc => by simpa using (hextc c (by simpa using hc)).1)]
    rw [List.singleton_append, List.takeWhile_cons_of_pos (by simp)]
  have hextr : (ext.reverse ++ '.' :: (x.reverse.takeWhile (· ≠ '/'))).takeWhile (· ≠ '.')
      = ext.reverse := by
    rw [takeWhile_append_all ext.reverse _
      (fun c hc => by simpa using (hextc c (by simpa using hc)).2)]
    rw [List.takeWhile_cons_of_neg (by simp)]
    simp
  have hlen : ext.reverse.length ≠ (ext.reverse ++ '.' :: (x.reverse.takeWhile (· ≠ '/'))).length := by
    simp only [List.length_append, List.length_cons]
    omega
  have hstemrev : (ext.reverse ++ '.' :: (x.reverse.takeWhile (· ≠ '/'))).drop
      (ext.reverse.length + 1) = x.reverse.takeWhile (· ≠ '/') := by
    have : ext.reverse ++ '.' :: (x.reverse.takeWhile (· ≠ '/'))
        = (ext.reverse ++ ['.']) ++ x.reverse.takeWhile (· ≠ '/') := by simp
    rw [this]
    have hl : ext.reverse.length + 1 = (ext.reverse ++ ['.']).length := by simp
    rw [hl, List.drop_left]
  have hall : (x.reverse.takeWhile (· ≠ '/')).all (· = '.') = false := by
    rcases hstem with ⟨c, hc, hcd⟩
    cases hres : (x.reverse.takeWhile (· ≠ '/')).all (· = '.') with
    | false => rfl
    | true =>
      have := List.all_eq_true.mp hres c hc
      simp at this
      exact absurd this hcd
  have hdrop : ((ext.reverse ++ ['.']) ++ x.reverse).drop (ext.reverse.length + 1)
      = x.reverse := by
    have hl : ext.reverse.length + 1 = (ext.reverse ++ ['.']).length := by simp
    rw [hl, List.drop_left]
  show splitextRoot ⟨x ++ '.' :: ext⟩ = ⟨x⟩
  simp only [splitextRoot, hdata]
  rw [hrev, hbase, hextr, hstemrev, hall]
  rw [if_neg hlen]
  simp only [Bool.false_eq_true, if_false]
  rw [hdrop]
  simp

/-- C7 counterexample: the claim's note alphabet is "a letter from A to G or
H", but the code's `range(ord('A'), ord('H'))` excludes `H`, so the path
`book/H.md` is NOT collapsed to `book/H`: the code keeps only `H`. -/
theorem c7_claim_counterexample :
    specIsNoteName "H" = true ∧ _isNoteName "H" = false ∧
    WikinameFromPath "book/H.md" = "H" ∧ ("H" : String) ≠ "book/H" := by
  refine ⟨by decide, by decide, rfl, by decide⟩

/-- C7 (amended: the note letters are `A`..`G` only, `H` excluded):
`WikinameFromPath` returns the final path segment without extension, except
that a note-name segment with a parent keeps `parent/segment`; with no
parent segment the stem alone is returned; and the claim's two concrete
examples hold.  The embedding is a total Lean function, matching "total
function raising no errors". -/
theorem c7_wikiname_from_path (parent stem ext : List Char)
    (hparc : ∀ c ∈ parent, c ≠ '/' ∧ c ≠ '.')
    (hstem : stem ≠ []) (hstemc : ∀ c ∈ stem, c ≠ '/' ∧ c ≠ '.')
    (hext : ext ≠ []) (hextc : ∀ c ∈ ext, c ≠ '/' ∧ c ≠ '.') :
    WikinameFromPath ⟨parent ++ '/' :: stem ++ '.' :: ext⟩ =
      (if _isNoteName ⟨stem⟩ then (⟨parent ++ '/' :: stem⟩ : String) else ⟨stem⟩) ∧
    WikinameFromPath ⟨stem ++ '.' :: ext⟩ = ⟨stem⟩ ∧
    WikinameFromPath "book/F/C.ext" = "F/C" ∧
    WikinameFromPath "book/Foo.ext" = "Foo" := by
  have hstem_nonil : ∃ c, c ∈ (stem.reverse.takeWhile (· ≠ '/')) ∧ c ≠ '.' := by
    rcases List.exists_mem_of_ne_nil stem hstem with ⟨c, hc⟩
    refine ⟨c, ?_, (hstemc c hc).2⟩
    rw [takeWhile_all stem.reverse
      (fun y hy => by simpa using (hstemc y (by simpa using hy)).1)]
    simpa using hc
  refine ⟨?_, ?_, by rfl, by rfl⟩
  · have hassoc : parent ++ '/' :: stem ++ '.' :: ext = (parent ++ '/' :: stem) ++ '.' :: ext := by
      simp
    have hx : splitextRoot ⟨(parent ++ '/' :: stem) ++ '.' :: ext⟩ = ⟨parent ++ '/' :: stem⟩ := by
      apply splitextRoot_eq _ _ hext hextc
      have : (parent ++ '/' :: stem).reverse = stem.reverse ++ '/' :: parent.reverse := by simp
      rw [this]
      rw [takeWhile_append_all stem.reverse _
        (fun y hy => by simpa using (hstemc y (by simpa using hy)).1)]
      rw [List.takeWhile_cons_of_neg (by simp)]
      rcases hstem_nonil with ⟨c, hc, hcd⟩
      rw [takeWhile_all stem.reverse
        (fun y hy => by simpa using (hstemc y (by simpa using hy)).1)] at hc
      exact ⟨c, by simpa using hc, hcd⟩
    rw [hassoc, WikinameFromPath, hx]
    have hparts : splitOnChar '/' (⟨parent ++ '/' :: stem⟩ : String).data = [parent, stem] := by
      show splitOnChar '/' (parent ++ '/' :: stem) = [parent, stem]
      rw [splitOnChar_append '/' parent stem (fun c hc => (hparc c hc).1)]
      rw [splitOnChar_no_sep '/' stem (fun c hc => (hstemc c hc).1)]
    rw [hparts]
    by_cases hnote : _isNoteName ⟨stem⟩
    · simp [hnote, List.getLastD]
    · simp [hnote, List.getLastD]
  · have hx : splitextRoot ⟨stem ++ '.' :: ext⟩ = ⟨stem⟩ := by
      apply splitextRoot_eq _ _ hext hextc
      exact hstem_nonil
    rw [WikinameFromPath, hx]
    have hparts : splitOnChar '/' (⟨stem⟩ : String).data = [stem] := by
      show splitOnChar '/' stem = [stem]
      exact splitOnChar_no_sep '/' stem (fun c hc => (hstemc c hc).1)
    rw [hparts]
    simp [List.getLastD]

/-- C7 witness: the amended statement applied to the concrete path
`content/F7/C.md` (note stem `C`, parent `F7`) and to `content/Foo.md`. -/
theorem c7_wikiname_from_path_witness :
    WikinameFromPath "F7/C.md" = "F7/C" ∧ WikinameFromPath "Foo.md" = "Foo" := by
  have h1 := c7_wikiname_from_path "F7".data "C".data "md".data
    (by decide) (by decide) (by decide) (by decide) (by decide)
  have h2 := c7_wikiname_from_path "x".data "Foo".data "md".data
    (by decide) (by decide) (by decide) (by decide) (by decide)
  exact ⟨by simpa using h1.1, by simpa using h2.2.1⟩

/-! ### C4: `DocumentsByPath`, amended -/

theorem alookup_append_left {α : Type} {l : List (String × α)} {k : String} {v : α}
    (h : alookup l k = some v) (l2 : List (String × α)) :
    alookup (l ++ l2) k = some v := by
  rw [alookup_append, h]

theorem alookup_append_right {α : Type} {l : List (String × α)} {k : String}
    (h : alookup l k = none) (l2 : List (String × α)) :
    alookup (l ++ l2) k = alookup l2 k := by
  rw [alookup_append, h]

theorem alookup_single_eq {α : Type} (k : String) (v : α) :
    alookup [(k, v)] k = some v := by
  simp [alookup]

theorem alookup_single_ne {α : Type} {k k' : String} (v : α) (h : k ≠ k') :
    alookup [(k, v)] k' = none := by
  simp [alookup, h]

theorem DocumentsByPathAux_preserve :
    ∀ (docs : List Document) (acc : List (String × Document)) (k : String) (v : Document),
      alookup acc k = some v → ∀ m, DocumentsByPathAux acc docs = .ok m →
        alookup m k = some v := by
  intro docs
  induction docs with
  | nil =>
    intro acc k v hk m hm
    simp [DocumentsByPathAux] at hm
    rwa [← hm]
  | cons doc rest ih =>
    intro acc k v hk m hm
    by_cases hfree : (alookup acc doc.path).isSome
    · simp [DocumentsByPathAux, hfree] at hm
    · simp only [DocumentsByPathAux, hfree, Bool.false_eq_true, if_false] at hm
      by_cases hl : (alookup (acc ++ [(doc.path, doc)]) (pyLower doc.path)).isSome
      · rw [if_pos hl] at hm
        exact ih _ k v (alookup_append_left hk _) m hm
      · rw [if_neg hl] at hm
        have : alookup (acc ++ [(doc.path, doc)] ++ [(pyLower doc.path, doc)]) k = some v := by
          rw [List.append_assoc]
          exact alookup_append_left hk _
        rw [List.append_assoc] at this hm
        exact ih _ k v this m hm

theorem alookup_isSome_append {α : Type} {l : List (String × α)} {k : String}
    (h : (alookup l k).isSome = true) (l2 : List (String × α)) :
    (alookup (l ++ l2) k).isSome = true := by
  rcases hv : alookup l k with _ | v
  · rw [hv] at h; simp at h
  · rw [alookup_append_left hv]
    rfl

theorem DocumentsByPathAux_dup :
    ∀ (docs : List Document) (acc : List (String × Document)),
      ((∃ d ∈ docs, (alookup acc d.path).isSome = true) ∨
        (∃ p, 2 ≤ (docs.map Document.path).count p)) →
      ∃ e, DocumentsByPathAux acc docs = .error e := by
  intro docs
  induction docs with
  | nil =>
    intro acc h
    rcases h with ⟨d, hd, _⟩ | ⟨p, hp⟩
    · simp at hd
    · simp at hp
  | cons doc rest ih =>
    intro acc h
    by_cases hfree : (alookup acc doc.path).isSome
    · refine ⟨"assert failed: doc.path not in by_path", ?_⟩
      simp [DocumentsByPathAux, hfree]
    · have hrest : (∃ d ∈ rest, (alookup (acc ++ [(doc.path, doc)]) d.path).isSome = true) ∨
          (∃ p, 2 ≤ (rest.map Document.path).count p) := by
        rcases h with ⟨d, hd, hsome⟩ | ⟨p, hcount⟩
        · rcases List.mem_cons.mp hd with heq | hmem
          · rw [heq] at hsome
            exact absurd hsome hfree
          · exact Or.inl ⟨d, hmem, alookup_isSome_append hsome _⟩
        · have hmapcons : (doc :: rest).map Document.path = doc.path :: rest.map Document.path := rfl
          rw [hmapcons, List.count_cons] at hcount
          by_cases hp : doc.path = p
          · -- doc itself carries p, so some later document also has path p
            have hbt : (doc.path == p) = true := by simp [hp]
            rw [hbt] at hcount
            simp only [if_true] at hcount
            have h1 : 1 ≤ (rest.map Document.path).count p := by omega
            have hpmem : p ∈ rest.map Document.path := by
              by_contra hnp
              rw [List.count_eq_zero_of_not_mem hnp] at h1
              omega
            rcases List.mem_map.mp hpmem with ⟨d, hdmem, hdp⟩
            refine Or.inl ⟨d, hdmem, ?_⟩
            rw [hdp, ← hp]
            rcases hv : alookup acc doc.path with _ | v
            · rw [alookup_append_right hv, alookup_single_eq]
              rfl
            · rw [alookup_append_left hv]
              rfl
          · refine Or.inr ⟨p, ?_⟩
            have hbf : (doc.path == p) = false := beq_eq_false_iff_ne.mpr hp
            rw [hbf] at hcount
            simp only [Bool.false_eq_true, if_false] at hcount
            omega
      by_cases hl : (alookup (acc ++ [(doc.path, doc)]) (pyLower doc.path)).isSome
      · rcases ih (acc ++ [(doc.path, doc)]) hrest with ⟨e, he⟩
        refine ⟨e, ?_⟩
        simp only [DocumentsByPathAux, hfree, Bool.false_eq_true, if_false]
        rwa [if_pos hl]
      · have hrest2 : (∃ d ∈ rest,
            (alookup (acc ++ [(doc.path, doc)] ++ [(pyLower doc.path, doc)]) d.path).isSome = true) ∨
            (∃ p, 2 ≤ (rest.map Document.path).count p) := by
          rcases hrest with ⟨d, hdmem, hsome⟩ | hcnt
          · exact Or.inl ⟨d, hdmem, alookup_isSome_append hsome _⟩
          · exact Or.inr hcnt
        rcases ih _ hrest2 with ⟨e, he⟩
        refine ⟨e, ?_⟩
        simp only [DocumentsByPathAux, hfree, Bool.false_eq_true, if_false]
        rwa [if_neg hl]

theorem DocumentsByPathAux_ok :
    ∀ (docs : List Document) (acc : List (String × Document)),
      (∀ d ∈ docs, alookup acc d.path = none) →
      docs.Pairwise (fun a b => b.path ≠ a.path ∧ b.path ≠ pyLower a.path) →
      ∃ m, DocumentsByPathAux acc docs = .ok m ∧
        (∀ k v, alookup acc k = some v → alookup m k = some v) ∧
        (∀ d ∈ docs, alookup m d.path = some d) ∧
        (∀ d ∈ docs, (alookup m (pyLower d.path)).isSome = true) := by
  intro docs
  induction docs with
  | nil =>
    intro acc _ _
    exact ⟨acc, rfl, fun k v h => h, by simp, by simp⟩
  | cons doc rest ih =>
    intro acc hfree hpw
    have hfd : alookup acc doc.path = none := hfree doc (List.mem_cons_self _ _)
    have hpw' := (List.pairwise_cons.mp hpw).2
    have hhd := (List.pairwise_cons.mp hpw).1
    have hvd : alookup (acc ++ [(doc.path, doc)]) doc.path = some doc := by
      rw [alookup_append_right hfd, alookup_single_eq]
    have hfree1 : ∀ d ∈ rest, alookup (acc ++ [(doc.path, doc)]) d.path = none := by
      intro d hd
      rw [alookup_append_right (hfree d (List.mem_cons_of_mem _ hd)),
        alookup_single_ne _ (fun hh => (hhd d hd).1 hh.symm)]
    by_cases hl : (alookup (acc ++ [(doc.path, doc)]) (pyLower doc.path)).isSome
    · rcases ih (acc ++ [(doc.path, doc)]) hfree1 hpw' with ⟨m, hm, hpres, hverb, hlow⟩
      refine ⟨m, ?_, ?_, ?_, ?_⟩
      · simp only [DocumentsByPathAux, hfd, Option.isSome_none, Bool.false_eq_true, if_false]
        rwa [if_pos hl]
      · intro k v hk
        exact hpres k v (alookup_append_left hk _)
      · intro d hd
        rcases List.mem_cons.mp hd with heq | hmem
        · rw [heq]
          exact hpres _ _ hvd
        · exact hverb d hmem
      · intro d hd
        rcases List.mem_cons.mp hd with heq | hmem
        · rw [heq]
          rcases hv : alookup (acc ++ [(doc.path, doc)]) (pyLower doc.path) with _ | v
          · rw [hv] at hl; simp at hl
          · rw [hpres _ _ hv]; rfl
        · exact hlow d hmem
    · have hfree2 : ∀ d ∈ rest,
          alookup (acc ++ [(doc.path, doc)] ++ [(pyLower doc.path, doc)]) d.path = none := by
        intro d hd
        rw [alookup_append_right (hfree1 d hd),
          alookup_single_ne _ (fun hh => (hhd d hd).2 hh.symm)]
      rcases ih (acc ++ [(doc.path, doc)] ++ [(pyLower doc.path, doc)]) hfree2 hpw'
        with ⟨m, hm, hpres, hverb, hlow⟩
      refine ⟨m, ?_, ?_, ?_, ?_⟩
      · simp only [DocumentsByPathAux, hfd, Option.isSome_none, Bool.false_eq_true, if_false]
        rwa [if_neg hl]
      · intro k v hk
        exact hpres k v (alookup_append_left (alookup_append_left hk _) _)
      · intro d hd
        rcases List.mem_cons.mp hd with heq | hmem
        · rw [heq]
          exact hpres _ _ (alookup_append_left hvd _)
        · exact hverb d hmem
      · intro d hd
        rcases List.mem_cons.mp hd with heq | hmem
        · rw [heq]
          have : alookup (acc ++ [(doc.path, doc)] ++ [(pyLower doc.path, doc)])
              (pyLower doc.path) = some doc := by
            rw [alookup_append_right (Option.not_isSome_iff_eq_none.mp hl), alookup_single_eq]
          rw [hpres _ _ this]; rfl
        · exact hlow d hmem

theorem DocumentsByPathAux_lower :
    ∀ (docs : List Document) (acc : List (String × Document)),
      (∀ d ∈ docs, alookup acc d.path = none) →
      (∀ d ∈ docs, alookup acc (pyLower d.path) = none) →
      docs.Pairwise (fun a b => (b.path ≠ a.path ∧ b.path ≠ pyLower a.path) ∧
        pyLower b.path ≠ pyLower a.path ∧ pyLower b.path ≠ a.path) →
      ∃ m, DocumentsByPathAux acc docs = .ok m ∧
        (∀ k v, alookup acc k = some v → alookup m k = some v) ∧
        (∀ d ∈ docs, alookup m (pyLower d.path) = some d) := by
  intro docs
  induction docs with
  | nil =>
    intro acc _ _ _
    exact ⟨acc, rfl, fun k v h => h, by simp⟩
  | cons doc rest ih =>
    intro acc hfree hfree2 hpw
    have hfd : alookup acc doc.path = none := hfree doc (List.mem_cons_self _ _)
    have hld : alookup acc (pyLower doc.path) = none := hfree2 doc (List.mem_cons_self _ _)
    have hpw' := (List.pairwise_cons.mp hpw).2
    have hhd := (List.pairwise_cons.mp hpw).1
    have hvd : alookup (acc ++ [(doc.path, doc)]) doc.path = some doc := by
      rw [alookup_append_right hfd, alookup_single_eq]
    have hfree1 : ∀ d ∈ rest, alookup (acc ++ [(doc.path, doc)]) d.path = none := by
      intro d hd
      rw [alookup_append_right (hfree d (List.mem_cons_of_mem _ hd)),
        alookup_single_ne _ (fun hh => (hhd d hd).1.1 hh.symm)]
    have hfree1l : ∀ d ∈ rest, alookup (acc ++ [(doc.path, doc)]) (pyLower d.path) = none := by
      intro d hd
      rw [alookup_append_right (hfree2 d (List.mem_cons_of_mem _ hd)),
        alookup_single_ne _ (fun hh => (hhd d hd).2.2 hh.symm)]
    by_cases hl : (alookup (acc ++ [(doc.path, doc)]) (pyLower doc.path)).isSome
    · -- the lower key is taken, necessarily by the verbatim binding just added
      have heq : pyLower doc.path = doc.path := by
        by_contra hne
        rw [alookup_append_right hld, alookup_single_ne _ (fun hh => hne hh.symm)] at hl
        simp at hl
      rcases ih (acc ++ [(doc.path, doc)]) hfree1 hfree1l hpw' with ⟨m, hm, hpres, hlow⟩
      refine ⟨m, ?_, ?_, ?_⟩
      · simp only [DocumentsByPathAux, hfd, Option.isSome_none, Bool.false_eq_true, if_false]
        rwa [if_pos hl]
      · intro k v hk
        exact hpres k v (alookup_append_left hk _)
      · intro d hd
        rcases List.mem_cons.mp hd with heqd | hmem
        · rw [heqd, heq]
          exact hpres _ _ hvd
        · exact hlow d hmem
    · have hfree2' : ∀ d ∈ rest,
          alookup (acc ++ [(doc.path, doc)] ++ [(pyLower doc.path, doc)]) d.path = none := by
        intro d hd
        rw [alookup_append_right (hfree1 d hd),
          alookup_single_ne _ (fun hh => (hhd d hd).1.2 hh.symm)]
      have hfree2l : ∀ d ∈ rest,
          alookup (acc ++ [(doc.path, doc)] ++ [(pyLower doc.path, doc)]) (pyLower d.path) = none := by
        intro d hd
        rw [alookup_append_right (hfree1l d hd),
          alookup_single_ne _ (fun hh => (hhd d hd).2.1 hh.symm)]
      rcases ih (acc ++ [(doc.path, doc)] ++ [(pyLower doc.path, doc)]) hfree2' hfree2l hpw'
        with ⟨m, hm, hpres, hlow⟩
      refine ⟨m, ?_, ?_, ?_⟩
      · simp only [DocumentsByPathAux, hfd, Option.isSome_none, Bool.false_eq_true, if_false]
        rwa [if_neg hl]
      · intro k v hk
        exact hpres k v (alookup_append_left (alookup_append_left hk _) _)
      · intro d hd
        rcases List.mem_cons.mp hd with heqd | hmem
        · rw [heqd]
          have : alookup (acc ++ [(doc.path, doc)] ++ [(pyLower doc.path, doc)])
              (pyLower doc.path) = some doc := by
            rw [alookup_append_right (Option.not_isSome_iff_eq_none.mp hl), alookup_single_eq]
          exact hpres _ _ this
        · exact hlow d hmem

/-- C4 (amended): `DocumentsByPath` fails whenever two documents share a
path; but pairwise-distinct paths are NOT sufficient for success — the
assertion also fires when a document's verbatim path equals the lower-cased
path of an earlier distinct document (see `c4_claim_counterexample`).  When
additionally no document's path collides with the lower-casing of an earlier
document's path, the build succeeds, every document is registered under its
verbatim path (the verbatim mapping is authoritative), a lower-cased key is
always present for every document, and — under full lower-case
distinctness — the lower-cased key of each document maps to that document
(first writer wins). -/
theorem c4_documents_by_path (docs : List Document) :
    (∀ p, 2 ≤ (docs.map Document.path).count p →
      ∃ e, DocumentsByPath docs = .error e) ∧
    (docs.Pairwise (fun a b => b.path ≠ a.path ∧ b.path ≠ pyLower a.path) →
      ∃ m, DocumentsByPath docs = .ok m ∧
        (∀ d ∈ docs, alookup m d.path = some d) ∧
        (∀ d ∈ docs, (alookup m (pyLower d.path)).isSome = true) ∧
        (docs.Pairwise (fun a b => pyLower b.path ≠ pyLower a.path ∧ pyLower b.path ≠ a.path) →
          ∀ d ∈ docs, alookup m (pyLower d.path) = some d)) := by
  constructor
  · intro p hp
    exact DocumentsByPathAux_dup docs [] (Or.inr ⟨p, hp⟩)
  · intro hpw
    rcases DocumentsByPathAux_ok docs [] (by simp [alookup]) hpw with ⟨m, hm, _, hverb, hsome⟩
    refine ⟨m, hm, hverb, hsome, ?_⟩
    intro hlowpw d hd
    rcases DocumentsByPathAux_lower docs [] (by simp [alookup]) (by simp [alookup])
      (hpw.and hlowpw) with ⟨m', hm', _, hlow⟩
    have : m = m' := by
      rw [hm] at hm'
      exact (Except.ok.injEq _ _).mp hm'
    rw [this]
    exact hlow d hd

/-- C4 witness: two documents `foo.md` then `Foo.md` satisfy the
strengthened distinctness, build successfully, and the case-insensitive
fallback for `foo.md` is won by the first document. -/
theorem c4_documents_by_path_witness :
    ∃ m, DocumentsByPath
        [⟨"x", "foo.md", none, ⟨"t", none, none⟩⟩, ⟨"y", "Foo.md", none, ⟨"u", none, none⟩⟩]
        = .ok m ∧
      alookup m "foo.md" = some ⟨"x", "foo.md", none, ⟨"t", none, none⟩⟩ ∧
      alookup m "Foo.md" = some ⟨"y", "Foo.md", none, ⟨"u", none, none⟩⟩ := by
  rcases (c4_documents_by_path
      [⟨"x", "foo.md", none, ⟨"t", none, none⟩⟩, ⟨"y", "Foo.md", none, ⟨"u", none, none⟩⟩]).2
      (by decide) with ⟨m, hm, hverb, _, _⟩
  exact ⟨m, hm,
    hverb ⟨"x", "foo.md", none, ⟨"t", none, none⟩⟩ (by decide),
    hverb ⟨"y", "Foo.md", none, ⟨"u", none, none⟩⟩ (by decide)⟩

/-! ### C6: `Slugify` is idempotent, with no boundary separators -/

theorem char_toNat_ofNat {n : Nat} (h : n.isValidChar) : (Char.ofNat n).toNat = n := by
  rw [Char.ofNat, dif_pos h]
  rfl

theorem pyLowerChar_idem (c : Char) : pyLowerChar (pyLowerChar c) = pyLowerChar c := by
  by_cases h : 65 ≤ c.toNat ∧ c.toNat ≤ 90
  · have h1 : pyLowerChar c = Char.ofNat (c.toNat + 32) := by
      show Char.toLower c = _
      unfold Char.toLower
      rw [if_pos h]
    have hv : Nat.isValidChar (c.toNat + 32) := Or.inl (by omega)
    have h2 : (pyLowerChar c).toNat = c.toNat + 32 := by rw [h1, char_toNat_ofNat hv]
    show Char.toLower (pyLowerChar c) = pyLowerChar c
    unfold Char.toLower
    rw [if_neg (by rw [h2]; omega)]
  · have h1 : pyLowerChar c = c := by
      show Char.toLower c = c
      unfold Char.toLower
      rw [if_neg h]
    rw [h1, h1]

theorem pyLowerChar_ne_underscore {c : Char} (h : c ≠ '_') : pyLowerChar c ≠ '_' := by
  by_cases hu : 65 ≤ c.toNat ∧ c.toNat ≤ 90
  · have h1 : pyLowerChar c = Char.ofNat (c.toNat + 32) := by
      show Char.toLower c = _
      unfold Char.toLower
      rw [if_pos hu]
    have hv : Nat.isValidChar (c.toNat + 32) := Or.inl (by omega)
    intro hc
    have := congrArg Char.toNat hc
    rw [h1, char_toNat_ofNat hv] at this
    have : c.toNat + 32 = 95 := this
    omega
  · have h1 : pyLowerChar c = c := by
      show Char.toLower c = c
      unfold Char.toLower
      rw [if_neg hu]
    rwa [h1]

theorem isWordChar_ne_dash {c : Char} (h : isWordChar c = true) : c ≠ '-' := by
  intro hc
  rw [hc] at h
  exact absurd h (by decide)

theorem map_id_of_fixed {α : Type} {f : α → α} :
    ∀ l : List α, (∀ c ∈ l, f c = c) → l.map f = l := by
  intro l h
  induction l with
  | nil => rfl
  | cons c cs ih =>
    rw [List.map_cons, h c (List.mem_cons_self _ _),
      ih (fun x hx => h x (List.mem_cons_of_mem _ hx))]

theorem filter_eq_self_of_all {α : Type} {p : α → Bool} :
    ∀ l : List α, (∀ c ∈ l, p c = true) → l.filter p = l := by
  intro l h
  induction l with
  | nil => rfl
  | cons c cs ih =>
    rw [List.filter_cons_of_pos (h c (List.mem_cons_self _ _)),
      ih (fun x hx => h x (List.mem_cons_of_mem _ hx))]

/-! `dashJoin` equations. -/

theorem dashJoin_nil : dashJoin [] = [] := rfl

theorem dashJoin_single (a : List Char) : dashJoin [a] = a := by
  simp [dashJoin, List.intercalate]

theorem dashJoin_cons (a : List Char) (t : List (List Char)) (h : t ≠ []) :
    dashJoin (a :: t) = a ++ '-' :: dashJoin t := by
  rcases t with _ | ⟨b, t'⟩
  · exact absurd rfl h
  · simp [dashJoin, List.intercalate, List.intersperse]

theorem dashJoin_ne_nil_of_head {a : List Char} (ha : a ≠ []) (t : List (List Char)) :
    dashJoin (a :: t) ≠ [] := by
  rcases t with _ | ⟨b, t'⟩
  · rwa [dashJoin_single]
  · rw [dashJoin_cons _ _ (by simp)]
    rcases a with _ | ⟨c, a'⟩
    · exact absurd rfl ha
    · simp

theorem dropWhile_dash_word {c : Char} {cs : List Char} (h : c ≠ '-') :
    (c :: cs).dropWhile (· = '-') = c :: cs := by
  rw [List.dropWhile_cons_of_neg (by simpa using h)]

theorem dropWhile_append_of_ne_nil {p : Char → Bool} :
    ∀ a b : List Char, a.dropWhile p ≠ [] →
      (a ++ b).dropWhile p = a.dropWhile p ++ b := by
  intro a b h
  induction a with
  | nil => exact absurd rfl h
  | cons c cs ih =>
    by_cases hc : p c
    · rw [List.dropWhile_cons_of_pos hc] at h
      rw [List.cons_append, List.dropWhile_cons_of_pos hc, ih h,
        List.dropWhile_cons_of_pos hc]
    · rw [List.cons_append, List.dropWhile_cons_of_neg hc, List.dropWhile_cons_of_neg hc]
      simp

/-! Invariants of the `splitRuns` scanner state. -/

theorem splitStep_ne_nil (c : Char) (st : List (List Char) × Bool) (h : st.1 ≠ []) :
    (splitStep c st).1 ≠ [] := by
  unfold splitStep
  by_cases hw : isWordChar c
  · rw [if_pos hw]
    rcases h1 : st.1 with _ | ⟨s, rest⟩
    · simp
    · simp
  · rw [if_neg hw]
    by_cases hf : st.2
    · rw [if_pos hf]
      exact h
    · rw [if_neg hf]
      simp

theorem splitRunsState_ne_nil : ∀ l : List Char, (l.foldr splitStep ([[]], false)).1 ≠ [] := by
  intro l
  induction l with
  | nil => simp
  | cons c cs ih =>
    rw [List.foldr_cons]
    exact splitStep_ne_nil c _ ih

theorem splitRunsState_chars :
    ∀ (l : List Char) (st : List (List Char) × Bool),
      (∀ seg ∈ st.1, ∀ ch ∈ seg, False) →
      ∀ seg ∈ (l.foldr splitStep st).1, ∀ ch ∈ seg, isWordChar ch = true ∧ ch ∈ l := by
  intro l
  induction l with
  | nil =>
    intro st hst seg hseg ch hch
    exact absurd (hst seg hseg ch hch) not_false
  | cons c cs ih =>
    intro st hst seg hseg ch hch
    rw [List.foldr_cons] at hseg
    set st' := cs.foldr splitStep st with hst'
    have IH : ∀ seg ∈ st'.1, ∀ ch ∈ seg, isWordChar ch = true ∧ ch ∈ cs :=
      fun seg hs ch hc => ih st hst seg hs ch hc
    unfold splitStep at hseg
    by_cases hw : isWordChar c
    · rw [if_pos hw] at hseg
      rcases h1 : st'.1 with _ | ⟨s, rest⟩
      · rw [h1] at hseg
        simp at hseg
        rcases hseg with rfl
        simp at hch
        rcases hch with rfl
        exact ⟨hw, List.mem_cons_self _ _⟩
      · rw [h1] at hseg
        simp at hseg
        rcases hseg with hseg | hseg
        · subst hseg
          rcases List.mem_cons.mp hch with rfl | hchs
          · exact ⟨hw, List.mem_cons_self _ _⟩
          · have := IH s (by rw [h1]; exact List.mem_cons_self _ _) ch hchs
            exact ⟨this.1, List.mem_cons_of_mem _ this.2⟩
        · have := IH seg (by rw [h1]; exact List.mem_cons_of_mem _ hseg) ch hch
          exact ⟨this.1, List.mem_cons_of_mem _ this.2⟩
    · rw [if_neg hw] at hseg
      by_cases hf : st'.2
      · rw [if_pos hf] at hseg
        have := IH seg hseg ch hch
        exact ⟨this.1, List.mem_cons_of_mem _ this.2⟩
      · rw [if_neg hf] at hseg
        rcases List.mem_cons.mp hseg with rfl | hsegs
        · simp at hch
        · have := IH seg hsegs ch hch
          exact ⟨this.1, List.mem_cons_of_mem _ this.2⟩

theorem splitRuns_chars (l : List Char) :
    ∀ seg ∈ splitRuns l, ∀ ch ∈ seg, isWordChar ch = true ∧ ch ∈ l := by
  intro seg hseg ch hch
  exact splitRunsState_chars l ([[]], false) (by simp) seg hseg ch hch

/-- The shape invariant of the scanner state: the segment list is non-empty,
all segments other than the first and the last are non-empty, and when the
last character processed was a word character (flag `false`) an empty head
segment can only occur in the initial state `[[]]`. -/
def SplitInv (st : List (List Char) × Bool) : Prop :=
  st.1 ≠ [] ∧ (∀ s ∈ st.1.tail.dropLast, s ≠ []) ∧
    (st.2 = false → st.1.headD [] = [] → st.1 = [[]])

theorem splitStep_inv (c : Char) (st : List (List Char) × Bool) (h : SplitInv st) :
    SplitInv (splitStep c st) := by
  obtain ⟨h1, h2, h3⟩ := h
  unfold splitStep
  by_cases hw : isWordChar c
  · rw [if_pos hw]
    rcases hst : st.1 with _ | ⟨s, rest⟩
    · exact absurd hst h1
    · refine ⟨by simp, ?_, ?_⟩
      · intro x hx
        apply h2
        rw [hst]
        simpa using hx
      · intro _ hh
        simp at hh
  · rw [if_neg hw]
    by_cases hf : st.2
    · rw [if_pos hf]
      exact ⟨h1, h2, by simp⟩
    · rw [if_neg hf]
      refine ⟨by simp, ?_, by simp⟩
      intro x hx
      simp only [List.tail_cons] at hx
      rcases hst : st.1 with _ | ⟨s, rest⟩
      · exact absurd hst h1
      · rw [hst] at hx
        rcases hrest : rest with _ | ⟨r1, rest'⟩
        · rw [hrest] at hx
          simp at hx
        · rw [hrest] at hx
          rw [List.dropLast_cons_of_ne_nil (by simp)] at hx
          rcases List.mem_cons.mp hx with rfl | hxs
          · intro hxe
            have := h3 (Bool.not_eq_true _ ▸ hf) (by rw [hst, hxe]; rfl)
            rw [hst, hrest] at this
            simp at this
          · apply h2
            rw [hst, hrest]
            simpa using hxs

theorem splitRuns_inv (l : List Char) : SplitInv (l.foldr splitStep ([[]], false)) := by
  induction l with
  | nil =>
    refine ⟨by simp, by simp, by simp⟩
  | cons c cs ih =>
    rw [List.foldr_cons]
    exact splitStep_inv c _ ih

theorem stripRight_of_word {s : List Char} (hs : s ≠ [])
    (hw : ∀ ch ∈ s, isWordChar ch = true) : stripRight s = s := by
  unfold stripRight
  rcases hr : s.reverse with _ | ⟨c, t⟩
  · rw [List.reverse_eq_nil_iff] at hr
    exact absurd hr hs
  · have hc : c ∈ s := by
      have : c ∈ s.reverse := by rw [hr]; exact List.mem_cons_self _ _
      simpa using this
    rw [dropWhile_dash_word (isWordChar_ne_dash (hw c hc)), ← hr, List.reverse_reverse]

theorem dropWhile_dashJoin_head (s0 : List Char) (t : List (List Char)) (hs0 : s0 ≠ [])
    (hw : ∀ ch ∈ s0, isWordChar ch = true) :
    (dashJoin (s0 :: t)).dropWhile (· = '-') = dashJoin (s0 :: t) := by
  rcases s0 with _ | ⟨c, s0'⟩
  · exact absurd rfl hs0
  · have hcw := hw c (List.mem_cons_self _ _)
    rcases t with _ | ⟨x, xs⟩
    · rw [dashJoin_single]
      exact dropWhile_dash_word (isWordChar_ne_dash hcw)
    · rw [dashJoin_cons _ _ (by simp), List.cons_append]
      exact dropWhile_dash_word (isWordChar_ne_dash hcw)

theorem stripRight_dashJoin :
    ∀ segs : List (List Char), segs ≠ [] →
      (∀ s ∈ segs.tail.dropLast, s ≠ []) →
      (∀ s ∈ segs, ∀ ch ∈ s, isWordChar ch = true) →
      segs.headD [] ≠ [] →
      stripRight (dashJoin segs) = dashJoin (segs.filter (· ≠ [])) := by
  intro segs
  induction segs with
  | nil => intro h; exact absurd rfl h
  | cons s0 rest ih =>
    intro _ h2 h3 h4
    have hs0 : s0 ≠ [] := by simpa using h4
    have hws0 : ∀ ch ∈ s0, isWordChar ch = true := h3 s0 (List.mem_cons_self _ _)
    rcases rest with _ | ⟨r1, rest'⟩
    · rw [dashJoin_single, stripRight_of_word hs0 hws0,
        List.filter_cons_of_pos (by simpa using hs0), List.filter_nil, dashJoin_single]
    · by_cases hr1 : r1 = []
      · have hrest' : rest' = [] := by
          rcases rest' with _ | ⟨x, xs⟩
          · rfl
          · have := h2 r1 (by simp [List.dropLast_cons_of_ne_nil])
            exact absurd hr1 this
        subst hrest'
        subst hr1
        rw [dashJoin_cons _ _ (by simp), dashJoin_single]
        unfold stripRight
        have hrev : (s0 ++ '-' :: ([] : List Char)).reverse = '-' :: s0.reverse := by simp
        rw [hrev, List.dropWhile_cons_of_pos (by simp)]
        rcases hrs : s0.reverse with _ | ⟨c, t⟩
        · rw [List.reverse_eq_nil_iff] at hrs
          exact absurd hrs hs0
        · have hc : c ∈ s0 := by
            have : c ∈ s0.reverse := by rw [hrs]; exact List.mem_cons_self _ _
            simpa using this
          rw [dropWhile_dash_word (isWordChar_ne_dash (hws0 c hc)), ← hrs, List.reverse_reverse]
          rw [List.filter_cons_of_pos (by simpa using hs0),
            List.filter_cons_of_neg (by simp), List.filter_nil, dashJoin_single]
      · have hmid' : ∀ s ∈ (r1 :: rest').tail.dropLast, s ≠ [] := by
          intro s hsm
          apply h2
          simp only [List.tail_cons]
          rcases rest' with _ | ⟨x, xs⟩
          · simp at hsm
          · rw [List.dropLast_cons_of_ne_nil (by simp)]
            simp only [List.tail_cons] at hsm
            exact List.mem_cons_of_mem _ hsm
        have hw' : ∀ s ∈ r1 :: rest', ∀ ch ∈ s, isWordChar ch = true :=
          fun s hsm => h3 s (List.mem_cons_of_mem _ hsm)
        have IH := ih (by simp) hmid' hw' (by simpa using hr1)
        have hfilter' : (r1 :: rest').filter (· ≠ []) = r1 :: rest'.filter (· ≠ []) :=
          List.filter_cons_of_pos (by simpa using hr1)
        have hjne : dashJoin ((r1 :: rest').filter (· ≠ [])) ≠ [] := by
          rw [hfilter']
          exact dashJoin_ne_nil_of_head hr1 _
        have hdwne : (dashJoin (r1 :: rest')).reverse.dropWhile (· = '-') ≠ [] := by
          intro hz
          apply hjne
          rw [← IH]
          unfold stripRight
          rw [hz]
          rfl
        rw [dashJoin_cons _ _ (by simp)]
        unfold stripRight
        have hrev2 : (s0 ++ '-' :: dashJoin (r1 :: rest')).reverse
            = (dashJoin (r1 :: rest')).reverse ++ '-' :: s0.reverse := by simp
        rw [hrev2, dropWhile_append_of_ne_nil _ _ hdwne, List.reverse_append]
        have hsr : ((dashJoin (r1 :: rest')).reverse.dropWhile (· = '-')).reverse
            = dashJoin ((r1 :: rest').filter (· ≠ [])) := IH
        rw [hsr]
        have hfull : (s0 :: r1 :: rest').filter (· ≠ [])
            = s0 :: (r1 :: rest'.filter (· ≠ [])) := by
          rw [List.filter_cons_of_pos (by simpa using hs0), hfilter']
        rw [hfull, hfilter']
        rw [dashJoin_cons s0 (r1 :: rest'.filter (· ≠ [])) (by simp)]
        simp

theorem stripDash_dashJoin (segs : List (List Char)) (h1 : segs ≠ [])
    (h2 : ∀ s ∈ segs.tail.dropLast, s ≠ [])
    (h3 : ∀ s ∈ segs, ∀ ch ∈ s, isWordChar ch = true) :
    stripDash (dashJoin segs) = dashJoin (segs.filter (· ≠ [])) := by
  have hsplit : stripDash (dashJoin segs) =
      stripRight ((dashJoin segs).dropWhile (· = '-')) := rfl
  rcases segs with _ | ⟨s0, rest⟩
  · exact absurd rfl h1
  · by_cases hs0 : s0 = []
    · subst hs0
      rcases rest with _ | ⟨r1, rest'⟩
      · rfl
      · by_cases hr1 : r1 = []
        · have hrest' : rest' = [] := by
            rcases rest' with _ | ⟨x, xs⟩
            · rfl
            · have := h2 r1 (by simp [List.dropLast_cons_of_ne_nil])
              exact absurd hr1 this
          subst hrest'
          subst hr1
          rfl
        · have hw1 : ∀ ch ∈ r1, isWordChar ch = true :=
            h3 r1 (List.mem_cons_of_mem _ (List.mem_cons_self _ _))
          have hX : dashJoin ([] :: r1 :: rest') = '-' :: dashJoin (r1 :: rest') := by
            rw [dashJoin_cons _ _ (by simp)]
            rfl
          have hXhead := dropWhile_dashJoin_head r1 rest' hr1 hw1
          rw [hsplit, hX, List.dropWhile_cons_of_pos (by simp), hXhead]
          have hmid' : ∀ s ∈ (r1 :: rest').tail.dropLast, s ≠ [] := by
            intro s hsm
            apply h2
            simp only [List.tail_cons]
            rcases rest' with _ | ⟨x, xs⟩
            · simp at hsm
            · rw [List.dropLast_cons_of_ne_nil (by simp)]
              simp only [List.tail_cons] at hsm
              exact List.mem_cons_of_mem _ hsm
          have hw' : ∀ s ∈ r1 :: rest', ∀ ch ∈ s, isWordChar ch = true :=
            fun s hsm => h3 s (List.mem_cons_of_mem _ hsm)
          have hrfilter : ([] :: r1 :: rest').filter (· ≠ []) = (r1 :: rest').filter (· ≠ []) :=
            List.filter_cons_of_neg (by simp)
          rw [stripRight_dashJoin (r1 :: rest') (by simp) hmid' hw' (by simpa using hr1), hrfilter]
    · have hws0 : ∀ ch ∈ s0, isWordChar ch = true := h3 s0 (List.mem_cons_self _ _)
      rw [hsplit, dropWhile_dashJoin_head s0 rest hs0 hws0]
      exact stripRight_dashJoin (s0 :: rest) (by simp) h2 h3 (by simpa using hs0)

theorem foldr_splitStep_word :
    ∀ (w : List Char), (∀ ch ∈ w, isWordChar ch = true) →
      ∀ (s : List Char) (rest : List (List Char)) (f : Bool),
        w.foldr splitStep (s :: rest, f) = ((w ++ s) :: rest, if w = [] then f else false) := by
  intro w
  induction w with
  | nil => intro _ s rest f; simp
  | cons c w' ih =>
    intro hw s rest f
    rw [List.foldr_cons, ih (fun x hx => hw x (List.mem_cons_of_mem _ hx)) s rest f]
    unfold splitStep
    rw [if_pos (hw c (List.mem_cons_self _ _))]
    simp

theorem foldr_splitStep_dashJoin :
    ∀ (ss : List (List Char)), ss ≠ [] → (∀ s ∈ ss, s ≠ []) →
      (∀ s ∈ ss, ∀ ch ∈ s, isWordChar ch = true) →
      (dashJoin ss).foldr splitStep ([[]], false) = (ss, false) := by
  intro ss
  induction ss with
  | nil => intro h; exact absurd rfl h
  | cons w t ih =>
    intro _ hne hw
    rcases t with _ | ⟨z, t'⟩
    · rw [dashJoin_single]
      rw [foldr_splitStep_word w (hw w (List.mem_cons_self _ _)) [] [] false]
      rw [if_neg (hne w (List.mem_cons_self _ _))]
      simp
    · rw [dashJoin_cons _ _ (by simp), List.foldr_append]
      have hinner := ih (by simp) (fun x hx => hne x (List.mem_cons_of_mem _ hx))
        (fun x hx => hw x (List.mem_cons_of_mem _ hx))
      have hstep : ('-' :: dashJoin (z :: t')).foldr splitStep ([[]], false)
          = splitStep '-' ((dashJoin (z :: t')).foldr splitStep ([[]], false)) := rfl
      rw [hstep, hinner]
      have hdash : splitStep '-' ((z :: t'), false) = ([] :: z :: t', true) := by
        unfold splitStep
        rw [if_neg (by decide)]
        rfl
      rw [hdash, foldr_splitStep_word w (hw w (List.mem_cons_self _ _)) [] (z :: t') true]
      rw [if_neg (hne w (List.mem_cons_self _ _))]
      simp

theorem splitRuns_dashJoin (ss : List (List Char)) (h1 : ss ≠ []) (h2 : ∀ s ∈ ss, s ≠ [])
    (h3 : ∀ s ∈ ss, ∀ ch ∈ s, isWordChar ch = true) :
    splitRuns (dashJoin ss) = ss := by
  unfold splitRuns
  rw [foldr_splitStep_dashJoin ss h1 h2 h3]

theorem mem_dashJoin {ch : Char} :
    ∀ segs : List (List Char), ch ∈ dashJoin segs → (∃ s ∈ segs, ch ∈ s) ∨ ch = '-' := by
  intro segs
  induction segs with
  | nil => intro h; simp [dashJoin_nil] at h
  | cons a t ih =>
    intro h
    rcases t with _ | ⟨b, t'⟩
    · rw [dashJoin_single] at h
      exact Or.inl ⟨a, List.mem_cons_self _ _, h⟩
    · rw [dashJoin_cons _ _ (by simp)] at h
      rcases List.mem_append.mp h with ha | hx
      · exact Or.inl ⟨a, List.mem_cons_self _ _, ha⟩
      · rcases List.mem_cons.mp hx with rfl | hX
        · exact Or.inr rfl
        · rcases ih hX with ⟨x, hs, hchs⟩ | hd
          · exact Or.inl ⟨x, List.mem_cons_of_mem _ hs, hchs⟩
          · exact Or.inr hd

theorem dashJoin_getLast_word :
    ∀ segs : List (List Char), (∀ s ∈ segs, s ≠ []) →
      (∀ s ∈ segs, ∀ ch ∈ s, isWordChar ch = true) →
      (dashJoin segs).getLast? ≠ some '-' := by
  intro segs
  induction segs with
  | nil =>
    intro _ _
    simp [dashJoin_nil]
  | cons a t ih =>
    intro hne hw
    rcases t with _ | ⟨b, t'⟩
    · rw [dashJoin_single]
      have ha : a ≠ [] := hne a (List.mem_cons_self _ _)
      rw [List.getLast?_eq_getLast a ha]
      intro hcontra
      have hmem := List.getLast_mem ha
      have := hw a (List.mem_cons_self _ _) _ hmem
      rw [Option.some.injEq] at hcontra
      rw [hcontra] at this
      exact absurd this (by decide)
    · rw [dashJoin_cons _ _ (by simp)]
      have hX : dashJoin (b :: t') ≠ [] :=
        dashJoin_ne_nil_of_head (hne b (List.mem_cons_of_mem _ (List.mem_cons_self _ _))) _
      have h1 : (a ++ '-' :: dashJoin (b :: t')).getLast? = (dashJoin (b :: t')).getLast? := by
        rw [List.getLast?_append]
        rcases hXl : dashJoin (b :: t') with _ | ⟨x, xs⟩
        · exact absurd hXl hX
        · rw [List.getLast?_cons_cons]
          rw [List.getLast?_eq_getLast _ (by simp)]
          rfl
      rw [h1]
      exact ih (fun x hx => hne x (List.mem_cons_of_mem _ hx))
        (fun x hx => hw x (List.mem_cons_of_mem _ hx))

theorem string_eq_of_data {a b : String} (h : a.data = b.data) : a = b := by
  cases a with
  | mk d1 =>
    cases b with
    | mk d2 =>
      have hd : d1 = d2 := h
      rw [hd]

theorem slugify_data (t : String) :
    (Slugify t).data = stripDash (dashJoin (splitRuns
      ((t.data.map (fun c => if c = '_' then ' ' else c)).map pyLowerChar))) := rfl

theorem replUnderscoreChar_ne {x : Char} : (if x = '_' then ' ' else x) ≠ '_' := by
  by_cases hx : x = '_'
  · rw [if_pos hx]
    decide
  · rw [if_neg hx]
    exact hx

set_option maxHeartbeats 1000000 in
/-- C6: `Slugify` is idempotent, and its output neither starts nor ends
with the separator `-`. -/
theorem c6_slugify_idempotent (s : String) :
    Slugify (Slugify s) = Slugify s ∧
    (Slugify s).data.head? ≠ some '-' ∧ (Slugify s).data.getLast? ≠ some '-' := by
  set L := (s.data.map (fun c => if c = '_' then ' ' else c)).map pyLowerChar with hLdef
  have hLu : ∀ ch ∈ L, ch ≠ '_' := by
    intro ch hch
    rw [hLdef] at hch
    rcases List.mem_map.mp hch with ⟨y, hy, rfl⟩
    rcases List.mem_map.mp hy with ⟨x, _, rfl⟩
    exact pyLowerChar_ne_underscore replUnderscoreChar_ne
  have hLl : ∀ ch ∈ L, pyLowerChar ch = ch := by
    intro ch hch
    rw [hLdef] at hch
    rcases List.mem_map.mp hch with ⟨y, _, rfl⟩
    exact pyLowerChar_idem y
  have hinv := splitRuns_inv L
  have hne : splitRuns L ≠ [] := hinv.1
  have hmid : ∀ x ∈ (splitRuns L).tail.dropLast, x ≠ [] := hinv.2.1
  have hword : ∀ x ∈ splitRuns L, ∀ ch ∈ x, isWordChar ch = true :=
    fun x hx ch hc => (splitRuns_chars L x hx ch hc).1
  have hmemL : ∀ x ∈ splitRuns L, ∀ ch ∈ x, ch ∈ L :=
    fun x hx ch hc => (splitRuns_chars L x hx ch hc).2
  have hinner : (Slugify s).data = dashJoin ((splitRuns L).filter (· ≠ [])) :=
    stripDash_dashJoin (splitRuns L) hne hmid hword
  set F := (splitRuns L).filter (· ≠ []) with hFdef
  have hFne : ∀ x ∈ F, x ≠ [] := by
    intro x hx
    have := (List.mem_filter.mp hx).2
    simpa using this
  have hFword : ∀ x ∈ F, ∀ ch ∈ x, isWordChar ch = true :=
    fun x hx => hword x (List.mem_filter.mp hx).1
  have hFsub : ∀ x ∈ F, ∀ ch ∈ x, ch ∈ L :=
    fun x hx => hmemL x (List.mem_filter.mp hx).1
  have hIchars : ∀ ch ∈ dashJoin F, (ch ∈ L ∧ isWordChar ch = true) ∨ ch = '-' := by
    intro ch hch
    rcases mem_dashJoin F hch with ⟨x, hx, hcx⟩ | hd
    · exact Or.inl ⟨hFsub x hx ch hcx, hFword x hx ch hcx⟩
    · exact Or.inr hd
  refine ⟨?_, ?_, ?_⟩
  · have hrepl : (Slugify s).data.map (fun c => if c = '_' then ' ' else c)
        = (Slugify s).data := by
      apply map_id_of_fixed
      intro c hc
      rw [hinner] at hc
      rcases hIchars c hc with ⟨hcl, _⟩ | rfl
      · rw [if_neg (hLu c hcl)]
      · rfl
    have hlower : (Slugify s).data.map pyLowerChar = (Slugify s).data := by
      apply map_id_of_fixed
      intro c hc
      rw [hinner] at hc
      rcases hIchars c hc with ⟨hcl, _⟩ | rfl
      · exact hLl c hcl
      · decide
    apply string_eq_of_data
    rw [slugify_data (Slugify s), hrepl, hlower]
    by_cases hFnil : F = []
    · rw [hinner, hFnil]
      rfl
    · have hSR : splitRuns ((Slugify s).data) = F := by
        rw [hinner]
        exact splitRuns_dashJoin F hFnil hFne hFword
      rw [hSR]
      rw [stripDash_dashJoin F hFnil
        (fun x hx => hFne x (List.mem_of_mem_tail (List.mem_of_mem_dropLast hx))) hFword]
      rw [filter_eq_self_of_all F (fun x hx => by simpa using hFne x hx)]
      rw [hinner]
  · rw [hinner]
    rcases hFc : F with _ | ⟨w, t⟩
    · simp [dashJoin_nil]
    · have hwne : w ≠ [] := hFne w (by rw [hFc]; exact List.mem_cons_self _ _)
      rcases hwc : w with _ | ⟨c, w'⟩
      · exact absurd hwc hwne
      · have hcw : isWordChar c = true := by
          apply hFword w (by rw [hFc]; exact List.mem_cons_self _ _)
          rw [hwc]
          exact List.mem_cons_self _ _
        have hhead : (dashJoin ((c :: w') :: t)).head? = some c := by
          rcases t with _ | ⟨x, xs⟩
          · rw [dashJoin_single]
            rfl
          · rw [dashJoin_cons _ _ (by simp), List.cons_append]
            rfl
        rw [hhead]
        intro hcontra
        rw [Option.some.injEq] at hcontra
        rw [hcontra] at hcw
        exact absurd hcw (by decide)
  · rw [hinner]
    exact dashJoin_getLast_word F hFne hFword

/-! ### C2: redirect-chain resolution terminates; cycles abort loudly -/

theorem redirectExists_eq_true {redirects : List (String × String)}
    {byW : List (String × Document)} {w : String} :
    RedirectExists redirects byW w = true ↔
      ∃ v, alookup redirects w = some v ∧ (alookup byW v).isSome = true := by
  unfold RedirectExists
  rcases h : alookup redirects w with _ | v
  · simp
  · simp

theorem contains_eq_true_of_mem {l : List String} {w : String} (h : w ∈ l) :
    l.contains w = true := by
  simpa using h

theorem not_mem_of_contains_eq_false {l : List String} {w : String}
    (h : l.contains w = false) : w ∉ l := by
  simpa using h

theorem ResolveRedirectAux_succ (redirects : List (String × String))
    (byW : List (String × Document)) (fuel : Nat) (visited : List String)
    (doc : Option Document) (w : String) :
    ResolveRedirectAux redirects byW (fuel + 1) visited doc w =
      (if RedirectExists redirects byW w then
        if visited.contains w then .error "Redirect loop"
        else
          match alookup redirects w with
          | none => .error "unreachable: RedirectExists guarantees an edge"
          | some v =>
            match alookup byW (pythonTitle v) with
            | none => .error "KeyError: wikiname_title not in by_wikiname"
            | some d =>
              if d.fm.wiki_name = some (pythonTitle v) then
                ResolveRedirectAux redirects byW fuel (w :: visited) (some d) (pythonTitle v)
              else .error "assert failed: wikiname_title != doc.fm.wiki_name"
      else
        match doc with
        | some d =>
          if d.fm.redirect.isSome then .error "Trying to redirect to a redirection"
          else .ok (some d)
        | none => .ok none) := rfl

theorem card_sdiff_decrease {keys : Finset String} {visited : List String} {w : String}
    (hw : w ∈ keys) (hnv : w ∉ visited) (n : Nat)
    (h : (keys \ visited.toFinset).card < n + 1) :
    (keys \ (w :: visited).toFinset).card < n := by
  have hmem : w ∈ keys \ visited.toFinset :=
    Finset.mem_sdiff.mpr ⟨hw, by simpa using hnv⟩
  have hsub : keys \ (w :: visited).toFinset = (keys \ visited.toFinset).erase w := by
    ext x
    simp only [Finset.mem_sdiff, Finset.mem_erase, List.toFinset_cons, Finset.mem_insert,
      List.mem_toFinset]
    constructor
    · rintro ⟨hx, hnx⟩
      push_neg at hnx
      exact ⟨hnx.1, hx, fun hxm => hnx.2 (by simpa using hxm)⟩
    · rintro ⟨hne, hx, hnx⟩
      exact ⟨hx, by push_neg; exact ⟨hne, by simpa using hnx⟩⟩
  rw [hsub, Finset.card_erase_of_mem hmem]
  have hpos : 0 < (keys \ visited.toFinset).card := Finset.card_pos.mpr ⟨w, hmem⟩
  omega

theorem resolve_fuel_ok (redirects : List (String × String)) (byW : List (String × Document)) :
    ∀ (fuel : Nat) (visited : List String) (doc : Option Document) (w : String),
      ((redirects.map Prod.fst).toFinset \ visited.toFinset).card < fuel →
      ResolveRedirectAux redirects byW fuel visited doc w ≠ .error "insufficient fuel" := by
  intro fuel
  induction fuel with
  | zero =>
    intro visited doc w h
    omega
  | succ f ih =>
    intro visited doc w hcard
    rw [ResolveRedirectAux_succ]
    by_cases hre : RedirectExists redirects byW w
    · rw [if_pos hre]
      by_cases hvis : visited.contains w
      · rw [if_pos hvis]
        intro h
        injection h with h'
        exact absurd h' (by decide)
      · rw [if_neg hvis]
        rcases redirectExists_eq_true.mp hre with ⟨v, hv, hbw⟩
        simp only [hv]
        rcases hbwv : alookup byW (pythonTitle v) with _ | d
        · intro h
          injection h with h'
          exact absurd h' (by decide)
        · simp only []
          by_cases hwn : d.fm.wiki_name = some (pythonTitle v)
          · rw [if_pos hwn]
            apply ih
            apply card_sdiff_decrease (List.mem_toFinset.mpr (alookup_key_mem hv))
              (not_mem_of_contains_eq_false (by simpa using hvis)) f hcard
          · rw [if_neg hwn]
            intro h
            injection h with h'
            exact absurd h' (by decide)
    · rw [if_neg hre]
      rcases doc with _ | d
      · intro h
        exact Except.noConfusion h
      · simp only []
        by_cases hred : d.fm.redirect.isSome
        · rw [if_pos hred]
          intro h
          injection h with h'
          exact absurd h' (by decide)
        · rw [if_neg hred]
          intro h
          exact Except.noConfusion h

theorem resolve_cycle_aux (redirects : List (String × String)) (byW : List (String × Document))
    (hW : ∀ p ∈ redirects, pythonTitle p.2 = p.2)
    (hB : ∀ p ∈ byW, (p.2).fm.wiki_name = some p.1) :
    ∀ (k fuel : Nat) (visited : List String) (doc : Option Document) (w : String),
      k < fuel →
      (∀ m : Nat, m ≤ k → RedirectExists redirects byW (followN redirects byW m w) = true) →
      (followN redirects byW k w ∈ visited ∨
        ∃ m < k, followN redirects byW k w = followN redirects byW m w) →
      ResolveRedirectAux redirects byW fuel visited doc w = .error "Redirect loop" := by
  intro k
  induction k with
  | zero =>
    intro fuel visited doc w hfuel hsteps hhit
    rcases fuel with _ | f
    · omega
    · have hre : RedirectExists redirects byW w = true := hsteps 0 (Nat.le_refl _)
      rw [ResolveRedirectAux_succ]
      rw [if_pos hre]
      rcases hhit with hv | ⟨m, hm, _⟩
      · rw [if_pos (contains_eq_true_of_mem (show w ∈ visited from hv))]
      · omega
  | succ k ih =>
    intro fuel visited doc w hfuel hsteps hhit
    rcases fuel with _ | f
    · omega
    · have hre : RedirectExists redirects byW w = true := hsteps 0 (Nat.zero_le _)
      rw [ResolveRedirectAux_succ]
      rw [if_pos hre]
      by_cases hvis : visited.contains w
      · rw [if_pos hvis]
      · rw [if_neg hvis]
        rcases redirectExists_eq_true.mp hre with ⟨v, hv, hbw⟩
        simp only [hv]
        have hvt : pythonTitle v = v := hW (w, v) (alookup_mem hv)
        have hstep_eq : ∀ m, followN redirects byW (m + 1) w
            = followN redirects byW m (pythonTitle v) := by
          intro m
          show (if RedirectExists redirects byW w then
              followN redirects byW m (pythonTitle ((alookup redirects w).getD w)) else w)
            = followN redirects byW m (pythonTitle v)
          rw [if_pos hre, hv]
          rfl
        rcases hbwv : alookup byW (pythonTitle v) with _ | d
        · rw [hvt] at hbwv
          rw [hbwv] at hbw
          exact absurd hbw (by decide)
        · have hwn : d.fm.wiki_name = some (pythonTitle v) := by
            have := hB (pythonTitle v, d) (alookup_mem hbwv)
            simpa using this
          simp only []
          rw [if_pos hwn]
          apply ih f (w :: visited) (some d) (pythonTitle v) (by omega)
          · intro m hm
            have := hsteps (m + 1) (by omega)
            rwa [hstep_eq m] at this
          · rcases hhit with hvmem | ⟨m, hm, heq⟩
            · left
              rw [← hstep_eq k]
              exact List.mem_cons_of_mem _ hvmem
            · rcases m with _ | m'
              · left
                rw [← hstep_eq k, heq]
                exact List.mem_cons_self _ _
              · right
                refine ⟨m', by omega, ?_⟩
                rw [← hstep_eq k, ← hstep_eq m']
                exact heq

/-- C2: redirect-chain resolution terminates on every finite redirect map
(the fuel of the model, one more than the number of redirect edges, is never
exhausted), and when following edges from a name revisits a name before the
chain terminates — a redirect-chain cycle — `ResolveRedirect` aborts with
the `Redirect loop` assertion instead of looping.  `hW` states that redirect
targets are title-case stable and `hB` that `by_wikiname` maps each key to a
document carrying that wiki name, the invariants `__main__` establishes when
building the two dictionaries. -/
theorem c2_cycle_detection (redirects : List (String × String))
    (byW : List (String × Document)) (w : String) (i j : Nat)
    (hW : ∀ p ∈ redirects, pythonTitle p.2 = p.2)
    (hB : ∀ p ∈ byW, (p.2).fm.wiki_name = some p.1)
    (ht : pythonTitle w = w)
    (hij : i < j)
    (hcyc : followN redirects byW i w = followN redirects byW j w)
    (hsteps : ∀ m, m < j → RedirectExists redirects byW (followN redirects byW m w) = true) :
    ResolveRedirect redirects byW w = .error "Redirect loop" ∧
    (∀ w', ResolveRedirect redirects byW w' ≠ .error "insufficient fuel") := by
  constructor
  · unfold ResolveRedirect
    rw [ht]
    by_cases hj : j ≤ redirects.length
    · apply resolve_cycle_aux redirects byW hW hB j (redirects.length + 1) [] none w (by omega)
      · intro m hm
        rcases Nat.lt_or_ge m j with hmj | hmj
        · exact hsteps m hmj
        · have hmeq : m = j := by omega
          rw [hmeq, ← hcyc]
          exact hsteps i hij
      · right
        exact ⟨i, hij, hcyc.symm⟩
    · push_neg at hj
      have hmaps : ∀ m ∈ Finset.range (redirects.length + 1),
          followN redirects byW m w ∈ (redirects.map Prod.fst).toFinset := by
        intro m hm
        have hmlt : m < j := by
          simp only [Finset.mem_range] at hm
          omega
        rcases redirectExists_eq_true.mp (hsteps m hmlt) with ⟨v, hv, _⟩
        exact List.mem_toFinset.mpr (alookup_key_mem hv)
      have hcardlt : (redirects.map Prod.fst).toFinset.card
          < (Finset.range (redirects.length + 1)).card := by
        rw [Finset.card_range]
        have hle := List.toFinset_card_le (redirects.map Prod.fst)
        simp only [List.length_map] at hle
        omega
      obtain ⟨a, ha, b, hb, hab, heq⟩ :=
        Finset.exists_ne_map_eq_of_card_lt_of_maps_to hcardlt hmaps
      simp only [Finset.mem_range] at ha hb
      have hgen : ∀ a' b', a' < b' → b' ≤ redirects.length →
          followN redirects byW a' w = followN redirects byW b' w →
          ResolveRedirectAux redirects byW (redirects.length + 1) [] none w
            = .error "Redirect loop" := by
        intro a' b' hab' hb' hfeq
        apply resolve_cycle_aux redirects byW hW hB b' (redirects.length + 1) [] none w
          (by omega)
        · intro m hm
          exact hsteps m (by omega)
        · right
          exact ⟨a', hab', hfeq.symm⟩
      rcases Nat.lt_or_ge a b with hlt | hge
      · exact hgen a b hlt (by omega) heq
      · have hblt : b < a := by omega
        exact hgen b a hblt (by omega) heq.symm
  · intro w'
    unfold ResolveRedirect
    apply resolve_fuel_ok
    have h1 : ((redirects.map Prod.fst).toFinset \ (([] : List String)).toFinset)
        = (redirects.map Prod.fst).toFinset := by simp
    rw [h1]
    have hle := List.toFinset_card_le (redirects.map Prod.fst)
    simp only [List.length_map] at hle
    omega

/-- C2 witness: the two-edge cycle `A -> B -> A` aborts with the
`Redirect loop` assertion. -/
theorem c2_cycle_detection_witness :
    ResolveRedirect [("A", "B"), ("B", "A")]
      [("A", ⟨"r", "A.md", none, ⟨"A", some "A", some "B"⟩⟩),
       ("B", ⟨"r", "B.md", none, ⟨"B", some "B", some "A"⟩⟩)] "A"
      = .error "Redirect loop" :=
  (c2_cycle_detection [("A", "B"), ("B", "A")]
    [("A", ⟨"r", "A.md", none, ⟨"A", some "A", some "B"⟩⟩),
     ("B", ⟨"r", "B.md", none, ⟨"B", some "B", some "A"⟩⟩)] "A" 0 2
    (by decide) (by decide) (by decide) (by decide) (by decide)
    (by decide)).1

/-! ### C9: content transformations preserve path and metadata -/

/-- C9: each content transformation — `RemoveCategoryLinks`, `HandleImageTags`,
`FixMonospace`, and (when it succeeds) `TryToFixWikilinks` — returns a new
document whose `path` and `mp` equal the input document's; only the content
(and the front matter recomputed from it) may differ.  The embedding is pure,
so the input document itself is never mutated. -/
theorem c9_transforms_frame (makeFM : String → String → FrontMatter)
    (site : Site) (ctag itag : String) (translit : String → String) (d : Document) :
    (RemoveCategoryLinks makeFM ctag d).path = d.path ∧
    (RemoveCategoryLinks makeFM ctag d).mp = d.mp ∧
    (HandleImageTags makeFM itag d).path = d.path ∧
    (HandleImageTags makeFM itag d).mp = d.mp ∧
    (FixMonospace makeFM d).path = d.path ∧
    (FixMonospace makeFM d).mp = d.mp ∧
    ∀ d', TryToFixWikilinks makeFM site ctag translit d = .ok d' →
      d'.path = d.path ∧ d'.mp = d.mp := by
  refine ⟨rfl, rfl, rfl, rfl, rfl, rfl, ?_⟩
  intro d' h
  unfold TryToFixWikilinks at h
  rcases haux : TryToFixWikilinksAux site ctag translit d.fm.title d.path
      (d.content.data.length + 1) d.content.data with e | c
  · rw [haux] at h
    exact Except.noConfusion h
  · rw [haux] at h
    injection h with h3
    rw [← h3]
    exact ⟨rfl, rfl⟩

/-- C9 witness: the frame property evaluated on a concrete document whose
content holds no wikilink. -/
theorem c9_transforms_frame_witness :
    (RemoveCategoryLinks (fun _ _ => (⟨"t", none, none⟩ : FrontMatter)) "kategoria"
      ⟨"plain", "p.md", none, ⟨"t", none, none⟩⟩).path = "p.md" ∧
    (⟨"plain", "p.md", none, (⟨"t", none, none⟩ : FrontMatter)⟩ : Document).path = "p.md" ∧
    (⟨"plain", "p.md", none, (⟨"t", none, none⟩ : FrontMatter)⟩ : Document).mp = none := by
  refine ⟨?_, ?_⟩
  · exact (c9_transforms_frame (fun _ _ => ⟨"t", none, none⟩) ⟨[], [], []⟩ "kategoria"
      "grafika" id ⟨"plain", "p.md", none, ⟨"t", none, none⟩⟩).1
  · have hfr := (c9_transforms_frame (fun _ _ => ⟨"t", none, none⟩) ⟨[], [], []⟩ "kategoria"
      "grafika" id ⟨"plain", "p.md", none, ⟨"t", none, none⟩⟩).2.2.2.2.2.2
      ⟨"plain", "p.md", none, ⟨"t", none, none⟩⟩ (by rfl)
    exact ⟨hfr.1, hfr.2⟩

/-! ### C1/C3: the wikilink substitution scan -/

theorem tryToFix_aux_nil (site : Site) (tag : String) (translit : String → String)
    (st sp : String) (fuel : Nat) :
    TryToFixWikilinksAux site tag translit st sp (fuel + 1) [] = .ok [] := rfl

theorem tryToFix_aux_cons (site : Site) (tag : String) (translit : String → String)
    (st sp : String) (fuel : Nat) (c : Char) (cs : List Char) :
    TryToFixWikilinksAux site tag translit st sp (fuel + 1) (c :: cs) =
      (match matchWikilink (c :: cs) with
      | some (anchor, dest, rest) => do
        let r ← repl site tag translit st sp ⟨anchor⟩ ⟨dest⟩
        let tail ← TryToFixWikilinksAux site tag translit st sp fuel rest
        .ok (r.data ++ tail)
      | none => do
        let tail ← TryToFixWikilinksAux site tag translit st sp fuel cs
        .ok (c :: tail)) := rfl

theorem matchWikilink_none {c : Char} (cs : List Char) (h : c ≠ '[') :
    matchWikilink (c :: cs) = none := by
  unfold matchWikilink
  simp only []
  rw [if_neg h]

theorem matchWikilink_exact (anchor dest post : List Char)
    (ha : anchor ≠ []) (ha2 : ∀ c ∈ anchor, c ≠ ']')
    (hd : dest ≠ []) (hd2 : ∀ c ∈ dest, pyIsSpace c = false) :
    matchWikilink ('[' :: (anchor ++ (']' :: '(' :: (dest ++ (wikilinkTail ++ post)))))
      = some (anchor, dest, post) := by
  have htw1 : (anchor ++ (']' :: '(' :: (dest ++ (wikilinkTail ++ post)))).takeWhile
      (· ≠ ']') = anchor := by
    rw [takeWhile_append_all _ _ (fun c hc => by simp [ha2 c hc])]
    rw [List.takeWhile_cons_of_neg (by simp)]
    simp
  have hdrop1 : (anchor ++ (']' :: '(' :: (dest ++ (wikilinkTail ++ post)))).drop anchor.length
      = ']' :: '(' :: (dest ++ (wikilinkTail ++ post)) := List.drop_left _ _
  have htw2 : (dest ++ (wikilinkTail ++ post)).takeWhile (fun c => !pyIsSpace c) = dest := by
    rw [takeWhile_append_all _ _ (fun c hc => by simp [hd2 c hc])]
    rw [show wikilinkTail ++ post = ' ' :: (wikilinkTail.tail ++ post) from rfl]
    rw [List.takeWhile_cons_of_neg (by decide)]
    simp
  have hdrop2 : (dest ++ (wikilinkTail ++ post)).drop dest.length
      = wikilinkTail ++ post := List.drop_left _ _
  have htk12 : (wikilinkTail ++ post).take 12 = wikilinkTail := by
    rw [show (12 : Nat) = wikilinkTail.length from rfl]
    exact List.take_left _ _
  have hdp12 : (wikilinkTail ++ post).drop 12 = post := by
    rw [show (12 : Nat) = wikilinkTail.length from rfl]
    exact List.drop_left _ _
  have hdd : List.drop 2 (']' :: '(' :: (dest ++ (wikilinkTail ++ post)))
      = dest ++ (wikilinkTail ++ post) := rfl
  unfold matchWikilink
  simp only []
  rw [if_pos trivial]
  simp only [htw1]
  rw [if_neg ha]
  simp only [hdrop1]
  rw [if_pos (show List.take 2 (']' :: '(' :: (dest ++ (wikilinkTail ++ post)))
    = [']', '('] from rfl)]
  simp only [hdd, htw2]
  rw [if_neg hd]
  simp only [hdrop2, htk12]
  rw [if_pos trivial]
  simp only [hdp12]

theorem tryToFix_no_bracket (site : Site) (tag : String) (translit : String → String)
    (st sp : String) :
    ∀ (l : List Char) (fuel : Nat), (∀ c ∈ l, c ≠ '[') → l.length < fuel →
      TryToFixWikilinksAux site tag translit st sp fuel l = .ok l := by
  intro l
  induction l with
  | nil =>
    intro fuel _ hf
    rcases fuel with _ | f
    · omega
    · rfl
  | cons c cs ih =>
    intro fuel hnb hf
    rcases fuel with _ | f
    · omega
    · rw [tryToFix_aux_cons, matchWikilink_none cs (hnb c (List.mem_cons_self _ _))]
      simp only []
      rw [ih f (fun x hx => hnb x (List.mem_cons_of_mem _ hx))
        (by simp only [List.length_cons] at hf; omega)]
      rfl

theorem tryToFix_splice (site : Site) (tag : String) (translit : String → String)
    (st sp : String) (anchor dest : List Char) (r : String)
    (ha : anchor ≠ []) (ha2 : ∀ c ∈ anchor, c ≠ ']')
    (hd : dest ≠ []) (hd2 : ∀ c ∈ dest, pyIsSpace c = false)
    (hrepl : repl site tag translit st sp ⟨anchor⟩ ⟨dest⟩ = .ok r) :
    ∀ (pre : List Char) (post : List Char) (fuel : Nat),
      (∀ c ∈ pre, c ≠ '[') → (∀ c ∈ post, c ≠ '[') →
      pre.length + post.length + 2 ≤ fuel →
      TryToFixWikilinksAux site tag translit st sp fuel
        (pre ++ ('[' :: (anchor ++ (']' :: '(' :: (dest ++ (wikilinkTail ++ post))))))
        = .ok (pre ++ (r.data ++ post)) := by
  intro pre
  induction pre with
  | nil =>
    intro post fuel _ hpost hfuel
    rcases fuel with _ | f
    · omega
    · simp only [List.nil_append]
      rw [tryToFix_aux_cons, matchWikilink_exact anchor dest post ha ha2 hd hd2]
      simp only []
      rw [hrepl]
      rw [tryToFix_no_bracket site tag translit st sp post f hpost (by omega)]
      rfl
  | cons c pre' ih =>
    intro post fuel hpre hpost hfuel
    rcases fuel with _ | f
    · omega
    · have hc : c ≠ '[' := hpre c (List.mem_cons_self _ _)
      rw [List.cons_append, tryToFix_aux_cons, matchWikilink_none _ hc]
      simp only []
      rw [ih post f (fun x hx => hpre x (List.mem_cons_of_mem _ hx)) hpost
        (by simp only [List.length_cons] at hfuel; omega)]
      rfl

theorem ok_bind {α β : Type} (a : α) (f : α → Except String β) :
    (Except.ok a >>= f : Except String β) = f a := rfl

theorem resolve_chain (redirects : List (String × String)) (byW : List (String × Document)) :
    ∀ (ws : List String) (w : String) (T : Document) (fuel : Nat)
      (visited : List String) (doc : Option Document),
      redirectChainB redirects byW w ws T = true →
      (w :: ws).Nodup →
      (∀ x ∈ w :: ws, x ∉ visited) →
      ws.length < fuel →
      ResolveRedirectAux redirects byW fuel visited doc w = .ok (some T) := by
  intro ws
  induction ws with
  | nil =>
    intro w T fuel visited doc hchain
    simp [redirectChainB] at hchain
  | cons w' ws'' ih =>
    intro w T fuel visited doc hchain hnodup hfresh hfuel
    rcases fuel with _ | f
    · omega
    · have hwv : w ∉ visited := hfresh w (List.mem_cons_self _ _)
      rcases ws'' with _ | ⟨w2, ws3⟩
      · simp only [redirectChainB, Bool.and_eq_true, beq_iff_eq, Bool.not_eq_true',
          Bool.not_eq_true] at hchain
        obtain ⟨⟨⟨⟨⟨h1, h2⟩, h3⟩, h4⟩, h5⟩, h6⟩ := hchain
        have hre : RedirectExists redirects byW w = true :=
          redirectExists_eq_true.mpr ⟨w', h1, by rw [h3]; rfl⟩
        rw [ResolveRedirectAux_succ, if_pos hre, if_neg (by simpa using hwv)]
        simp only [h1, h2, h3]
        rw [if_pos (by simp [h4, h2])]
        rcases f with _ | f'
        · simp only [List.length_cons, List.length_nil] at hfuel
          omega
        · rw [ResolveRedirectAux_succ, if_neg (by simp [h6])]
          simp only []
          rw [if_neg (by simp [h5])]
      · simp only [redirectChainB, Bool.and_eq_true, beq_iff_eq] at hchain
        obtain ⟨⟨⟨h1, h2⟩, h3⟩, hrest⟩ := hchain
        rcases hbw : alookup byW w' with _ | d
        · rw [hbw] at h3
          simp at h3
        · rw [hbw] at h3
          simp only [beq_iff_eq] at h3
          have hre : RedirectExists redirects byW w = true :=
            redirectExists_eq_true.mpr ⟨w', h1, by rw [hbw]; rfl⟩
          rw [ResolveRedirectAux_succ, if_pos hre, if_neg (by simpa using hwv)]
          simp only [h1, h2, hbw]
          rw [if_pos (by simp [h3, h2])]
          have hnodup2 : (w' :: w2 :: ws3).Nodup := hnodup.of_cons
          have hwn2 : w ∉ w' :: w2 :: ws3 := (List.nodup_cons.mp hnodup).1
          apply ih w' T f (w :: visited) (some d) hrest hnodup2
          · intro x hx hmem
            rcases List.mem_cons.mp hmem with rfl | hv2
            · exact hwn2 hx
            · exact hfresh x (List.mem_cons_of_mem _ hx) hv2
          · simp only [List.length_cons] at hfuel ⊢
            omega

theorem chain_mem_keys (redirects : List (String × String)) (byW : List (String × Document)) :
    ∀ (ws : List String) (w : String) (T : Document),
      redirectChainB redirects byW w ws T = true →
      ∀ x ∈ w :: ws.dropLast, x ∈ redirects.map Prod.fst := by
  intro ws
  induction ws with
  | nil =>
    intro w T h
    simp [redirectChainB] at h
  | cons w' ws'' ih =>
    intro w T hchain x hx
    rcases ws'' with _ | ⟨w2, ws3⟩
    · simp only [List.dropLast_single] at hx
      simp only [List.mem_singleton] at hx
      subst hx
      simp only [redirectChainB, Bool.and_eq_true, beq_iff_eq, Bool.not_eq_true',
        Bool.not_eq_true] at hchain
      exact List.mem_map_of_mem Prod.fst (alookup_mem hchain.1.1.1.1.1)
    · simp only [redirectChainB, Bool.and_eq_true, beq_iff_eq] at hchain
      obtain ⟨⟨⟨h1, _⟩, _⟩, hrest⟩ := hchain
      have hdl : (w' :: w2 :: ws3).dropLast = w' :: (w2 :: ws3).dropLast := rfl
      rw [hdl] at hx
      rcases List.mem_cons.mp hx with rfl | hx2
      · exact List.mem_map_of_mem Prod.fst (alookup_mem h1)
      · exact ih w' T hrest x hx2

theorem chain_length_le (redirects : List (String × String)) (byW : List (String × Document))
    (ws : List String) (w : String) (T : Document)
    (hchain : redirectChainB redirects byW w ws T = true)
    (hnodup : (w :: ws).Nodup) :
    ws.length ≤ redirects.length := by
  rcases ws with _ | ⟨w', ws''⟩
  · simp
  · have hsub : List.Sublist (w :: (w' :: ws'').dropLast) (w :: w' :: ws'') :=
      List.Sublist.cons₂ w (List.dropLast_sublist (w' :: ws''))
    have hnd : (w :: (w' :: ws'').dropLast).Nodup := hnodup.sublist hsub
    have hmem := chain_mem_keys redirects byW (w' :: ws'') w T hchain
    have hlen : (w :: (w' :: ws'').dropLast).length ≤ (redirects.map Prod.fst).length := by
      calc (w :: (w' :: ws'').dropLast).length
          = (w :: (w' :: ws'').dropLast).toFinset.card :=
            (List.toFinset_card_of_nodup hnd).symm
        _ ≤ (redirects.map Prod.fst).toFinset.card :=
            Finset.card_le_card (fun x hx =>
              List.mem_toFinset.mpr (hmem x (List.mem_toFinset.mp hx)))
        _ ≤ (redirects.map Prod.fst).length := List.toFinset_card_le _
    simp only [List.length_cons, List.length_map, List.length_dropLast] at hlen ⊢
    omega

theorem repl_resolved (site : Site) (tag : String) (translit : String → String)
    (selfTitle selfPath : String) (anchor dest : String) (ws : List String) (T : Document)
    (hchain : redirectChainB site.redirects site.by_wikiname
        (pythonTitle (pythonTitle dest)) ws T = true)
    (hnodup : (pythonTitle (pythonTitle dest) :: ws).Nodup)
    (hbp : (alookup site.by_path T.path).isSome = true) :
    repl site tag translit selfTitle selfPath anchor dest =
      .ok ("[" ++ anchor ++ "](\x7b\x7b< relref \"" ++ spaceToUnderscore T.fm.title
        ++ ".md\" >\x7d\x7d)") := by
  have hres : ResolveRedirect site.redirects site.by_wikiname (pythonTitle dest)
      = .ok (some T) := by
    unfold ResolveRedirect
    apply resolve_chain site.redirects site.by_wikiname ws _ T _ [] none hchain hnodup
      (by intro x _ hm; simp at hm)
    have := chain_length_le site.redirects site.by_wikiname ws
      (pythonTitle (pythonTitle dest)) T hchain hnodup
    omega
  unfold repl
  simp only []
  rw [hres, ok_bind]
  simp only []
  rw [if_pos hbp]

theorem repl_unresolved (site : Site) (tag : String) (translit : String → String)
    (selfTitle selfPath : String) (anchor dest : String)
    (h1 : RedirectExists site.redirects site.by_wikiname
        (pythonTitle (pythonTitle dest)) = false)
    (h2 : alookup site.by_wikiname (pythonTitle dest) = none)
    (h3 : alookup site.by_path "/no/path/exists" = none)
    (h4 : matchesCategoryTag tag dest = false) :
    repl site tag translit selfTitle selfPath anchor dest =
      .ok (annotateInvalid anchor (pyReprStr selfTitle ++ " (" ++ pyReprPath selfPath
        ++ ") links to " ++ pyReprStr dest ++ " (" ++ pyReprPath "/no/path/exists"
        ++ ") and that does not exist")) := by
  have hres : ResolveRedirect site.redirects site.by_wikiname (pythonTitle dest)
      = .ok none := by
    unfold ResolveRedirect
    rw [ResolveRedirectAux_succ, if_neg (by simp [h1])]
  unfold repl
  simp only []
  rw [hres, ok_bind]
  simp only []
  simp only [h2]
  simp only [h3]
  rw [if_neg (by simp [h4])]

/-- C1: for a wikilink occurrence `[anchor](dest "wikilink")` whose
title-cased destination starts a redirect chain `ws` (each edge's target
present in `by_wikiname` with a matching `wiki_name`) ending at the
non-redirect document `T` registered in `by_path`, `TryToFixWikilinks`
replaces the occurrence with `[anchor](\x7b\x7b< relref "F" >\x7d\x7d)` where `F` is
`T`'s title with spaces replaced by underscores plus the `.md` extension; the
surrounding text is preserved and no intermediate chain name appears — the
output is fully determined by `T` alone. -/
theorem c1_chain_resolution (makeFM : String → String → FrontMatter) (site : Site)
    (ctag : String) (translit : String → String) (d : Document) (T : Document)
    (ws : List String) (pre anchor dest post : List Char)
    (hcontent : d.content.data
      = pre ++ ('[' :: (anchor ++ (']' :: '(' :: (dest ++ (wikilinkTail ++ post))))))
    (hpre : ∀ c ∈ pre, c ≠ '[') (hpost : ∀ c ∈ post, c ≠ '[')
    (ha : anchor ≠ []) (ha2 : ∀ c ∈ anchor, c ≠ ']')
    (hd : dest ≠ []) (hd2 : ∀ c ∈ dest, pyIsSpace c = false)
    (hchain : redirectChainB site.redirects site.by_wikiname
        (pythonTitle (pythonTitle (String.mk dest))) ws T = true)
    (hnodup : (pythonTitle (pythonTitle (String.mk dest)) :: ws).Nodup)
    (hbp : (alookup site.by_path T.path).isSome = true) :
    ∃ d', TryToFixWikilinks makeFM site ctag translit d = .ok d' ∧
      d'.content.data = pre ++ ((("[" ++ String.mk anchor ++ "](\x7b\x7b< relref \""
        ++ spaceToUnderscore T.fm.title ++ ".md\" >\x7d\x7d)") : String).data ++ post) := by
  have hrepl := repl_resolved site ctag translit d.fm.title d.path
    (String.mk anchor) (String.mk dest) ws T hchain hnodup hbp
  have heq : TryToFixWikilinks makeFM site ctag translit d
      = .ok { content := ⟨pre ++ ((("[" ++ String.mk anchor ++ "](\x7b\x7b< relref \""
                ++ spaceToUnderscore T.fm.title ++ ".md\" >\x7d\x7d)") : String).data ++ post)⟩,
              path := d.path, mp := d.mp,
              fm := makeFM ⟨pre ++ ((("[" ++ String.mk anchor ++ "](\x7b\x7b< relref \""
                ++ spaceToUnderscore T.fm.title ++ ".md\" >\x7d\x7d)") : String).data ++ post)⟩
                d.path } := by
    unfold TryToFixWikilinks
    rw [hcontent]
    rw [tryToFix_splice site ctag translit d.fm.title d.path anchor dest _ ha ha2 hd hd2
      hrepl pre post _ hpre hpost (by simp; omega)]
    rfl
  exact ⟨_, heq, rfl⟩

/-- C1 witness: the double-hop chain `Akord -> Bakord -> Cakord` from the
test corpus resolves `[akord](akord "wikilink")` directly to `Cakord.md`. -/
theorem c1_chain_resolution_witness :
    ∃ d', TryToFixWikilinks (fun _ _ => (⟨"t", none, none⟩ : FrontMatter))
        ⟨[("ksiazka/Akord.md",
            ⟨"redirect", "ksiazka/Akord.md", none, ⟨"Akord", some "Akord", some "Bakord"⟩⟩),
          ("ksiazka/Bakord.md",
            ⟨"also a redirect", "ksiazka/Bakord.md", none,
              ⟨"Bakord", some "Bakord", some "Cakord"⟩⟩),
          ("ksiazka/Cakord.md",
            ⟨"O akordzie", "ksiazka/Cakord.md", none, ⟨"Cakord", some "Cakord", none⟩⟩)],
         [("Akord",
            ⟨"redirect", "ksiazka/Akord.md", none, ⟨"Akord", some "Akord", some "Bakord"⟩⟩),
          ("Bakord",
            ⟨"also a redirect", "ksiazka/Bakord.md", none,
              ⟨"Bakord", some "Bakord", some "Cakord"⟩⟩),
          ("Cakord",
            ⟨"O akordzie", "ksiazka/Cakord.md", none, ⟨"Cakord", some "Cakord", none⟩⟩)],
         [("Akord", "Bakord"), ("Bakord", "Cakord")]⟩
        "kategoria" id
        ⟨"[akord](akord \"wikilink\")", "ksiazka/Some_article.md", none,
          ⟨"Some article", none, none⟩⟩
      = .ok d' ∧
      d'.content.data = [] ++ ((("[" ++ String.mk "akord".data ++ "](\x7b\x7b< relref \""
        ++ spaceToUnderscore (⟨"O akordzie", "ksiazka/Cakord.md", none,
            ⟨"Cakord", some "Cakord", none⟩⟩ : Document).fm.title
        ++ ".md\" >\x7d\x7d)") : String).data ++ []) :=
  c1_chain_resolution (fun _ _ => (⟨"t", none, none⟩ : FrontMatter))
    ⟨[("ksiazka/Akord.md",
        ⟨"redirect", "ksiazka/Akord.md", none, ⟨"Akord", some "Akord", some "Bakord"⟩⟩),
      ("ksiazka/Bakord.md",
        ⟨"also a redirect", "ksiazka/Bakord.md", none,
          ⟨"Bakord", some "Bakord", some "Cakord"⟩⟩),
      ("ksiazka/Cakord.md",
        ⟨"O akordzie", "ksiazka/Cakord.md", none, ⟨"Cakord", some "Cakord", none⟩⟩)],
     [("Akord",
        ⟨"redirect", "ksiazka/Akord.md", none, ⟨"Akord", some "Akord", some "Bakord"⟩⟩),
      ("Bakord",
        ⟨"also a redirect", "ksiazka/Bakord.md", none,
          ⟨"Bakord", some "Bakord", some "Cakord"⟩⟩),
      ("Cakord",
        ⟨"O akordzie", "ksiazka/Cakord.md", none, ⟨"Cakord", some "Cakord", none⟩⟩)],
     [("Akord", "Bakord"), ("Bakord", "Cakord")]⟩
    "kategoria" id
    ⟨"[akord](akord \"wikilink\")", "ksiazka/Some_article.md", none,
      ⟨"Some article", none, none⟩⟩
    ⟨"O akordzie", "ksiazka/Cakord.md", none, ⟨"Cakord", some "Cakord", none⟩⟩
    ["Bakord", "Cakord"] [] "akord".data "akord".data []
    (by decide) (by decide) (by decide) (by decide) (by decide) (by decide) (by decide)
    (by decide) (by decide) (by decide)

/-- C3 counterexample: on an unresolvable link the code emits the anchor
WITHOUT brackets followed by a POLISH comment (`annotate_invalid` returns
`'%s<!-- link nie odnosił się do niczego: %s -->'`), so the output never has
the claimed form `[anchor]<!-- link did not resolve to anything: ... -->`. -/
theorem c3_claim_counterexample :
    ∃ d', TryToFixWikilinks (fun _ _ => (⟨"foo", none, none⟩ : FrontMatter)) ⟨[], [], []⟩
        "kategoria" id ⟨"[a](Zzz \"wikilink\")", "p.md", none, ⟨"foo", none, none⟩⟩
      = .ok d' ∧
      d'.content.data.take 2 = ['a', '<'] ∧
      ∀ reason : String, d'.content ≠ specAnnotateInvalid "a" reason := by
  refine ⟨_, rfl, by decide, ?_⟩
  intro reason h
  have hh := congrArg (fun s : String => s.data.head?) h
  simp only [specAnnotateInvalid, String.data_append] at hh
  simp only [List.cons_append, List.singleton_append, List.head?_cons] at hh
  exact absurd hh (by decide)

/-- C3 (amended): for a wikilink occurrence whose destination resolves to no
document (no redirect edge at the title-cased name, no `by_wikiname` entry,
no `by_path` entry for the fallback path) and does not match the category-tag
pattern, `TryToFixWikilinks` succeeds — it never raises — and replaces the
occurrence with `anchor<!-- link nie odnosił się do niczego: <diagnostic> -->`:
the anchor text is preserved exactly but WITHOUT surrounding brackets, and
the annotation is the Polish text of `annotate_invalid`, not the English
wording of the claim. -/
theorem c3_unresolvable_link (makeFM : String → String → FrontMatter) (site : Site)
    (ctag : String) (translit : String → String) (d : Document)
    (pre anchor dest post : List Char)
    (hcontent : d.content.data
      = pre ++ ('[' :: (anchor ++ (']' :: '(' :: (dest ++ (wikilinkTail ++ post))))))
    (hpre : ∀ c ∈ pre, c ≠ '[') (hpost : ∀ c ∈ post, c ≠ '[')
    (ha : anchor ≠ []) (ha2 : ∀ c ∈ anchor, c ≠ ']')
    (hd : dest ≠ []) (hd2 : ∀ c ∈ dest, pyIsSpace c = false)
    (h1 : RedirectExists site.redirects site.by_wikiname
        (pythonTitle (pythonTitle (String.mk dest))) = false)
    (h2 : alookup site.by_wikiname (pythonTitle (String.mk dest)) = none)
    (h3 : alookup site.by_path "/no/path/exists" = none)
    (h4 : matchesCategoryTag ctag (String.mk dest) = false) :
    ∃ d' reason, TryToFixWikilinks makeFM site ctag translit d = .ok d' ∧
      d'.content.data
        = pre ++ ((annotateInvalid (String.mk anchor) reason).data ++ post) := by
  have hrepl := repl_unresolved site ctag translit d.fm.title d.path
    (String.mk anchor) (String.mk dest) h1 h2 h3 h4
  have heq : TryToFixWikilinks makeFM site ctag translit d
      = .ok { content := ⟨pre ++ ((annotateInvalid (String.mk anchor)
                (pyReprStr d.fm.title ++ " (" ++ pyReprPath d.path ++ ") links to "
                  ++ pyReprStr (String.mk dest) ++ " (" ++ pyReprPath "/no/path/exists"
                  ++ ") and that does not exist")).data ++ post)⟩,
              path := d.path, mp := d.mp,
              fm := makeFM ⟨pre ++ ((annotateInvalid (String.mk anchor)
                (pyReprStr d.fm.title ++ " (" ++ pyReprPath d.path ++ ") links to "
                  ++ pyReprStr (String.mk dest) ++ " (" ++ pyReprPath "/no/path/exists"
                  ++ ") and that does not exist")).data ++ post)⟩ d.path } := by
    unfold TryToFixWikilinks
    rw [hcontent]
    rw [tryToFix_splice site ctag translit d.fm.title d.path anchor dest _ ha ha2 hd hd2
      hrepl pre post _ hpre hpost (by simp; omega)]
    rfl
  exact ⟨_, _, heq, rfl⟩

/-- C3 witness: the amended statement evaluated on `[a](Zzz "wikilink")`
against an empty site. -/
theorem c3_unresolvable_link_witness :
    ∃ d' reason, TryToFixWikilinks (fun _ _ => (⟨"foo", none, none⟩ : FrontMatter))
        ⟨[], [], []⟩ "kategoria" id
        ⟨"[a](Zzz \"wikilink\")", "p.md", none, ⟨"foo", none, none⟩⟩ = .ok d' ∧
      d'.content.data
        = [] ++ ((annotateInvalid (String.mk "a".data) reason).data ++ []) :=
  c3_unresolvable_link (fun _ _ => (⟨"foo", none, none⟩ : FrontMatter)) ⟨[], [], []⟩
    "kategoria" id ⟨"[a](Zzz \"wikilink\")", "p.md", none, ⟨"foo", none, none⟩⟩
    [] "a".data "Zzz".data []
    (by decide) (by decide) (by decide) (by decide) (by decide) (by decide) (by decide)
    (by decide) (by decide) (by decide) (by decide)

end MwToHugo
